/-
  Verification of the propositional-logic Fitch-proof system
  (formula parser, truth-function semantics, proof ledger, rule engine,
  automated prover) against its natural-language specification.

  The Python source is shallowly embedded: strings become `List Char`,
  dictionaries become association lists (`List (Char × Bool)`), values that
  Python computes by raising an exception become `Option`/`none`, and the
  non-structural recursions of the parser and the prover are given explicit
  fuel.  All definitions are executable.
-/
import Mathlib

namespace FitchProp

/-- Convert a string literal to the `List Char` representation used
throughout the embedding. -/
def cs (s : String) : List Char := s.toList

/-! ## Connective tables (`basis.py`) -/

def NULLARIES : List Char := ['#']
def UNARIES : List Char := ['~']
def BINARIES : List Char := ['v', '&', '^', '>', '-']
def CONNECTIVES : List Char := ['#', '~', 'v', '&', '^', '>', '-']
def SPEC_CONNECTIVES : List (List Char) :=
  [cs "⊥", cs "¬", cs " ∨ ", cs " ∧ ", cs " ⊕ ", cs " ⟶  ", cs " ⟷  "]
def VALID : List Char := cs "()#~v&^>-⊥¬∨∧⊕⟶⟷ "

/-- The binary truth functions of `TFS` in `basis.py`:
`v` is or, `&` is and, `>` is material conditional, `-` is biconditional
(defined from `>` both ways), `^` is exclusive or (negated biconditional). -/
def applyTF (c : Char) (p q : Bool) : Bool :=
  if c = 'v' then p || q
  else if c = '&' then p && q
  else if c = '>' then !p || q
  else if c = '-' then (!p || q) && (!q || p)
  else if c = '^' then !((!p || q) && (!q || p))
  else false

/-! ## Symbols (`basis.py`, class `Symbol`) -/

/-- A node of the formula tree: symbol tag, children, and the canonical
formula substring the node represents.  The source stores children as two
optional fields; the only shapes it ever constructs are a childless leaf
(`Symbol(c, formula=c)`), a negation whose `right` is set equal to its
`left` (`Symbol('~', neg, neg, ...)` — a deliberate node-sharing alias),
and a binary node with both children.  The three constructors mirror those
shapes, and the `left`/`right` accessors reproduce the alias. -/
inductive Symbol where
  | leaf (symb : Char) (formula : List Char)
  | unary (symb : Char) (child : Symbol) (formula : List Char)
  | binary (symb : Char) (left right : Symbol) (formula : List Char)
deriving DecidableEq, Repr

def Symbol.symb : Symbol → Char
  | .leaf s _ => s
  | .unary s _ _ => s
  | .binary s _ _ _ => s

def Symbol.left : Symbol → Option Symbol
  | .leaf _ _ => none
  | .unary _ c _ => some c
  | .binary _ l _ _ => some l

def Symbol.right : Symbol → Option Symbol
  | .leaf _ _ => none
  | .unary _ c _ => some c
  | .binary _ _ r _ => some r

def Symbol.formula : Symbol → List Char
  | .leaf _ f => f
  | .unary _ _ f => f
  | .binary _ _ _ f => f

/-- An assignment of boolean values to atomic names (a Python dict,
kept in insertion order). -/
abbrev Assign := List (Char × Bool)

/-- `Symbol.__call__`: evaluate a tree against an assignment.  The dispatch
follows the source: falsum, then negation (evaluating the left child), then
atomic lookup, then the binary truth functions on both children.  A lookup
of a missing atomic is a `KeyError` in Python, hence `none` here; a
connective tag on a childless node would call `None(vals)`, hence `none`. -/
def Symbol.eval (vals : Assign) : Symbol → Option Bool
  | .leaf s _ =>
    if s = '#' then some false
    else if s = '~' then none
    else if s ∈ BINARIES then none
    else vals.lookup s
  | .unary s c _ =>
    if s = '#' then some false
    else if s = '~' then (c.eval vals).map (!·)
    else if s ∈ BINARIES then do
      let p ← c.eval vals
      let q ← c.eval vals
      pure (applyTF s p q)
    else vals.lookup s
  | .binary s l r _ =>
    if s = '#' then some false
    else if s = '~' then (l.eval vals).map (!·)
    else if s ∈ BINARIES then do
      let p ← l.eval vals
      let q ← r.eval vals
      pure (applyTF s p q)
    else vals.lookup s

/-- The atomic names the evaluation of a tree may look up (used to state
well-formedness of a `Symbol` relative to its stored formula text). -/
def Symbol.atoms : Symbol → List Char
  | .leaf s _ =>
    if s = '#' then [] else if s = '~' then [] else if s ∈ BINARIES then []
    else [s]
  | .unary s c _ =>
    if s = '#' then [] else if s = '~' then c.atoms
    else if s ∈ BINARIES then c.atoms ++ c.atoms
    else [s]
  | .binary s l r _ =>
    if s = '#' then [] else if s = '~' then l.atoms
    else if s ∈ BINARIES then l.atoms ++ r.atoms
    else [s]

/-! ## String utilities (`Sentence._replace`, Python `str.replace`) -/

/-- One replacement pass of Python `str.replace` for a nonempty pattern
`o :: ot`: replace each non-overlapping occurrence, scanning left to right.
Structurally recursive on a fuel that bounds the scanned length (each step
consumes at least one character, so any fuel of at least the list length
gives the untruncated result). -/
def replaceGo (o : Char) (ot new : List Char) : Nat → List Char → List Char
  | 0, l => l
  | _ + 1, [] => []
  | fuel + 1, c :: rest =>
    if (o :: ot).isPrefixOf (c :: rest) then
      new ++ replaceGo o ot new fuel (rest.drop ot.length)
    else c :: replaceGo o ot new fuel rest

/-- Python `str.replace` (the source never replaces an empty pattern). -/
def replaceAll (old new : List Char) (s : List Char) : List Char :=
  match old with
  | [] => s
  | o :: ot => replaceGo o ot new s.length s

/-- `Sentence._replace`: fold a list of (old, new) replacements. -/
def replacePairs (pairs : List (List Char × List Char)) (s : List Char) :
    List Char :=
  pairs.foldl (fun acc (p : List Char × List Char) => replaceAll p.1 p.2 acc) s

/-- Normalization applied in `Sentence.__init__` before parsing:
brackets to parentheses, spec connectives to their ASCII tags,
then all spaces removed. -/
def normalize (s : List Char) : List Char :=
  let s := replacePairs [(['['], ['(']), ([']'], [')'])] s
  let s := replacePairs (SPEC_CONNECTIVES.zip (CONNECTIVES.map ([·]))) s
  s.filter (· ≠ ' ')

/-- `Sentence.__str__`: render the ASCII formula back with the spec
connectives. -/
def renderChars (s : List Char) : List Char :=
  replacePairs ((CONNECTIVES.map ([·])).zip SPEC_CONNECTIVES) s

/-! ## The parser (`sentence.py`) -/

/-- Scan loop of `Sentence._enclosed`: walk the characters from absolute
index `i`, tracking parenthesis depth, and record every binary connective
found at depth zero that is not the very last character (`last` is the index
of the final character of the whole formula). -/
def connScanAux : List Char → Nat → Nat → Int → List (Nat × Char)
  | [], _, _, _ => []
  | c :: rest, i, last, depth =>
    let depth' := depth + (if c = '(' then 1 else 0) - (if c = ')' then 1 else 0)
    (if depth' = 0 ∧ i ≠ last ∧ c ∈ BINARIES then [(i, c)] else []) ++
      connScanAux rest (i + 1) last depth'

/-- The connective positions collected by `Sentence._enclosed` when scanning
`formula` starting at index `start`. -/
def connScan (formula : List Char) (start : Nat) : List (Nat × Char) :=
  connScanAux (formula.drop start) start (formula.length - 1) 0

/-- `Sentence._trim`: strip the parentheses around short (atomic or negated
atomic) arguments. -/
def trim (arg : List Char) : List Char :=
  if arg.length = 3 ∨ arg.length = 4 then
    if arg.head? = some '(' ∧ arg.getLast? = some ')' then
      (arg.drop 1).dropLast
    else arg
  else arg

/-- Wrap a formula in parentheses. -/
def wrapP (l : List Char) : List Char := '(' :: l ++ [')']

/-- `Sentence._untrim`: re-add parentheses when the argument is not a
negation and longer than two characters, or when it is not self-contained
(its depth-zero scan from index 0 finds a binary connective). -/
def untrim (arg : List Char) : List Char :=
  match arg with
  | [] => []   -- unreachable: Python would raise IndexError on arg[0]
  | a :: _ =>
    if (a ≠ '~' ∧ arg.length > 2) ∨ ¬(connScan arg 0).isEmpty then
      wrapP arg
    else arg

/-- Insertion sort used to model Python's `sorted` on the connective
positions. -/
def insertNat (x : Nat) : List Nat → List Nat
  | [] => [x]
  | y :: t => if x ≤ y then x :: y :: t else y :: insertNat x t

def sortNat (l : List Nat) : List Nat := l.foldr insertNat []

/-- `Sentence._same_scope`: with a single depth-zero connective it is the
main connective; with several, split the `k+1` operands so the left group
takes `⌊(k+1)/2⌋` of them, wrap the left group if it holds more than one
operand, re-wrap the right group in parentheses, and make the connective
between the two groups the main connective.  `none` models the `IndexError`
Python raises when the dictionary of connectives is empty. -/
def sameScope (formula : List Char) (connectives : List (Nat × Char)) :
    Option (List Char × Nat) :=
  let connindex := sortNat (connectives.map (·.1))
  match connindex.head? with
  | none => none
  | some i0 =>
    if connectives.length > 1 then
      let num_args := connectives.length + 1
      let num_first_args := num_args / 2
      match connindex.get? (num_first_args - 1) with
      | none => none
      | some arg1_pos =>
        match connectives.lookup arg1_pos with
        | none => none
        | some c =>
          let arg1 := formula.take arg1_pos
          let arg1 := if num_first_args > 1 then wrapP arg1 else arg1
          some (arg1 ++ c :: wrapP (formula.drop (arg1_pos + 1)), arg1.length)
    else some (formula, i0)

/-- `Sentence._setup`: a one-character formula is an atomic (or constant)
symbol; otherwise report whether the formula starts with the negation tag.
`none` models the `IndexError` on an empty formula. -/
def setup (formula : List Char) : Option (Symbol ⊕ Nat) :=
  match formula with
  | [] => none
  | [c] => some (.inl (.leaf c [c]))
  | c :: _ => some (.inr (if c = '~' then 1 else 0))

/-- `Sentence._parse` (fueled): recursively parse a formula substring into
a `Symbol` tree.  The body of the `_enclosed` helper is inlined: it scans
for depth-zero connectives, builds the wide-scope-negation node when the
formula starts with the negation tag and is otherwise self-contained, and
reports the `(enclosed, connectives)` pair; the `while start == 0 and
enclosed` loop of `_parse` strips the outer parentheses and restarts, which
is expressed as a recursive call on the stripped formula.  Returns `none`
on fuel exhaustion or where Python raises. -/
def parseF : Nat → List Char → Option Symbol
  | 0, _ => none
  | fuel + 1, formula =>
    match setup formula with
    | none => none
    | some (.inl sym) => some sym
    | some (.inr start) =>
      let connectives := connScan formula start
      let enclosed := connectives.isEmpty
      if start = 1 ∧ enclosed then
        match parseF fuel (formula.drop 1) with
        | none => none
        | some neg =>
          let negf := neg.formula
          let negf := if negf.length > 1 then wrapP negf else negf
          some (.unary '~' neg ('~' :: negf))
      else if start = 0 ∧ enclosed then
        parseF fuel ((formula.drop 1).dropLast)
      else
        match sameScope formula connectives with
        | none => none
        | some (formula', mc_pos) =>
          match formula'.get? mc_pos with
          | none => none
          | some mc =>
            match parseF fuel (trim (formula'.take mc_pos)),
                parseF fuel (trim (formula'.drop (mc_pos + 1))) with
            | some arg1, some arg2 =>
              let arg1f := untrim arg1.formula
              let arg2f := if arg2.symb ≠ mc then untrim arg2.formula
                           else arg2.formula
              some (.binary mc arg1 arg2 (arg1f ++ mc :: arg2f))
            | _, _ => none

/-- Parse with ample fuel (the fuel bound is generous for every formula the
claims touch; fuel exhaustion yields `none`, like a parse failure). -/
def parseChars (formula : List Char) : Option Symbol :=
  parseF (4 * formula.length + 16) formula

/-! ## Sentences (`sentence.py`, class `Sentence`) -/

/-- A `Sentence` wraps one `Symbol` tree; its formula is the root's. -/
structure Sentence where
  root : Symbol
deriving DecidableEq, Repr

def Sentence.formula (s : Sentence) : List Char := s.root.formula

/-- `Sentence.__init__` from a formula string: normalize, then parse. -/
def Sentence.ofChars (formula : List Char) : Option Sentence :=
  (parseChars (normalize formula)).map Sentence.mk

def sent (s : String) : Option Sentence := Sentence.ofChars (cs s)

/-- `Sentence.__str__`: the spec-connective rendering of the formula. -/
def Sentence.render (s : Sentence) : List Char := renderChars s.formula

/-- `Sentence.__eq__`: structural equality is equality of renderings. -/
def Sentence.eqS (a b : Sentence) : Bool := a.render == b.render

/-- `Sentence.first`: the left subtree as a `Sentence`. -/
def Sentence.first (s : Sentence) : Option Sentence :=
  s.root.left.map Sentence.mk

/-- `Sentence.second`: the right subtree (aliases `first` for negations). -/
def Sentence.second (s : Sentence) : Option Sentence :=
  if s.root.symb = '~' then s.first else s.root.right.map Sentence.mk

/-- `Sentence.mc`: the main connective. -/
def Sentence.mcS (s : Sentence) : Char := s.root.symb

/-! ## Truth functions (`truthfunction.py`) -/

/-- Sorted insertion without duplicates, modelling Python's
`sorted(set(...))` (which produces the sorted list of the distinct
elements). -/
def insDedup (c : Char) : List Char → List Char
  | [] => [c]
  | d :: t => if c < d then c :: d :: t
              else if c = d then d :: t
              else d :: insDedup c t

def sortedDedup (l : List Char) : List Char := l.foldr insDedup []

/-- `TruthFunction.__init__`: the sorted distinct atomic names of the
sentence's formula (every character not in `VALID`). -/
def atomicsOf (s : Sentence) : List Char :=
  sortedDedup (s.formula.filter (· ∉ VALID))

/-- Inner loop of `TruthFunction._canonical`: the assignment for row `i`
maps the `j`-th atomic (0-based) to `True` exactly when
`i / 2^(n-j-1) % 2 = 0`. -/
def assignRow (atomics : List Char) (n i j : Nat) : Assign :=
  match atomics with
  | [] => []
  | a :: rest => (a, i / 2 ^ (n - j - 1) % 2 == 0) :: assignRow rest n i (j + 1)

/-- `TruthFunction._canonical`: all `2^n` assignments over the given
atomics, in binary-counting order. -/
def canonicalOf (atomics : List Char) : List Assign :=
  (List.range (2 ^ atomics.length)).map (fun i => assignRow atomics atomics.length i 0)

/-- The `true` partition built in `TruthFunction.__init__`: the canonical
assignments the sentence satisfies.  (Python appends to `self.true` when
`self(vals)` is truthy; an evaluation error would abort construction, which
corresponds to an assignment landing in neither filter.) -/
def truthTrue (s : Sentence) : List Assign :=
  (canonicalOf (atomicsOf s)).filter (fun v => s.root.eval v == some true)

/-- The `false` partition built in `TruthFunction.__init__`. -/
def truthFalse (s : Sentence) : List Assign :=
  (canonicalOf (atomicsOf s)).filter (fun v => s.root.eval v == some false)

def boolChars (b : Bool) : List Char := if b then cs "True" else cs "False"

/-- `TruthFunction.__adjust`: pad with spaces to the comparison length. -/
def padTo (s : List Char) (n : Nat) : List Char :=
  s ++ List.replicate (n - s.length) ' '

def joinSep (sep : List Char) : List (List Char) → List Char
  | [] => []
  | [x] => x
  | x :: rest => x ++ sep ++ joinSep sep rest

/-- `TruthFunction.__str__` (i.e. `__calcString([self.sentence], False)`):
the atomics header line, then one line per canonical assignment holding the
`T`/`F` initials of the assignment's values and the padded `True`/`False`
of the sentence's evaluation.  `none` when an evaluation raises. -/
def tfRow (s : Sentence) (vals : Assign) : Option (List Char) := do
  let b ← s.root.eval vals
  pure (joinSep (cs "  ") (vals.map (fun p => [if p.2 then 'T' else 'F'])) ++
        cs "  " ++ padTo (boolChars b) s.render.length ++ ['\n'])

def tfString (s : Sentence) : Option (List Char) := do
  let rows ← (canonicalOf (atomicsOf s)).mapM (tfRow s)
  pure (joinSep (cs "  ") ((atomicsOf s).map ([·])) ++ cs "  " ++ ['\n'] ++
    rows.flatten)

/-- `TruthFunction.__eq__`: compare the two table strings with all spaces
removed. -/
def eqTF (a b : Sentence) : Option Bool := do
  let x ← tfString a
  let y ← tfString b
  pure (x.filter (· ≠ ' ') == y.filter (· ≠ ' '))

/-- `Sentence.equivalent`. -/
def equivalentS (a b : Sentence) : Option Bool := eqTF a b

/-- `dict(vals, **other_vals)`: start from `vals` and insert each entry of
`other_vals`, overriding an existing key in place or appending. -/
def dictInsert (d : Assign) (kv : Char × Bool) : Assign :=
  if (d.lookup kv.1).isSome then
    d.map (fun p => if p.1 = kv.1 then (p.1, kv.2) else p)
  else d ++ [kv]

def dictMerge (v o : Assign) : Assign := o.foldl dictInsert v

/-- `TruthFunction.__gt__`: strictly stronger.  Unequal, and every satisfying
assignment of `a`, extended over every combination of values for the atomics
exclusive to `b`, satisfies `b`.  (Python enumerates the exclusive atomics
from a set, whose iteration order is arbitrary; the conjunction over all
extensions does not depend on that order, so we keep `b`'s sorted order.)
The folds reproduce Python's short-circuiting `and`: once false, later
evaluations are skipped. -/
def gtTF (a b : Sentence) : Option Bool := do
  let e ← eqTF a b
  if e then pure false
  else
    let other_canon := canonicalOf ((atomicsOf b).filter (· ∉ atomicsOf a))
    (truthTrue a).foldlM
      (fun cv vals =>
        if cv then
          other_canon.foldlM
            (fun c ov => if c then b.root.eval (dictMerge vals ov) else pure false)
            true
        else pure false)
      true

/-- `TruthFunction.__ge__`: `self == other or self > other`. -/
def geTF (a b : Sentence) : Option Bool := do
  let e ← eqTF a b
  if e then pure true else gtTF a b

/-- `TruthFunction.taut`: `taut(True)` iff every assignment satisfies the
formula; `taut(False)` iff none does.  The folds keep Python's
short-circuiting. -/
def tautCheck (s : Sentence) (val : Bool) : Option Bool :=
  if val then
    (canonicalOf (atomicsOf s)).foldlM
      (fun r v => if r then s.root.eval v else pure false) true
  else do
    let r ← (canonicalOf (atomicsOf s)).foldlM
      (fun r v => if r then pure true else s.root.eval v) false
    pure (!r)

/-! ## Programmatic sentence construction (`sentence.py`) -/

/-- `Sentence.negate`: strip one leading negation, or negate by wrapping. -/
def Sentence.negate (s : Sentence) : Option Sentence :=
  if s.root.symb = '~' then s.first
  else
    let f := '~' :: untrim s.formula
    some ⟨.unary '~' s.root f⟩

/-- `Sentence.join`: build the binary combination; joining with `None`
returns `self`. -/
def Sentence.join (s : Sentence) (other : Option Sentence) (connective : Char) :
    Sentence :=
  match other with
  | none => s
  | some o => ⟨.binary connective s.root o.root
      (untrim s.formula ++ connective :: untrim o.formula)⟩

/-- `Sentence.connect`: reduce a list to one sentence by splitting it in
half (the right half gets the extra element on odd counts) and joining the
two recursively connected halves.  `None` on the empty list. -/
def connectF : Nat → List Sentence → Char → Option Sentence
  | 0, _, _ => none
  | fuel + 1, sentences, connective =>
    match sentences with
    | [] => none
    | [x] => some x
    | x :: y :: rest =>
      let l := x :: y :: rest
      let num_args := l.length / 2
      match connectF fuel (l.take num_args) connective with
      | none => none   -- Python would call `None.join`, an AttributeError
      | some first =>
        some (first.join (connectF fuel (l.drop num_args) connective) connective)

def Sentence.connect (sentences : List Sentence) (connective : Char) :
    Option Sentence :=
  connectF (sentences.length + 1) sentences connective

/-! ## Decimal digit strings (for scope codes) -/

/-- Fueled digit extraction (any fuel of at least `n` suffices, since
`n / 10 < n` whenever `10 ≤ n`). -/
def decDigitsGo : Nat → Nat → List Nat
  | 0, n => [n]
  | fuel + 1, n => if n < 10 then [n] else decDigitsGo fuel (n / 10) ++ [n % 10]

/-- The decimal digits of `n`, most significant first (the digit list of
Python's `str(n)` for a natural number; `0` is the single digit `[0]`). -/
def decDigits (n : Nat) : List Nat := decDigitsGo n n

/-- `len(str(n))` for a natural number. -/
def digitLen (n : Nat) : Nat := (decDigits n).length

/-! ## Rules (`rule.py`) -/

/-- A cited line or line range, as stored for display in a rule. -/
inductive Cited where
  | line (n : Nat)
  | range (lo hi : Nat)
deriving DecidableEq, Repr

structure Rule where
  name : String
  cited : List Cited
deriving DecidableEq, Repr

/-- The `lines` argument of `Rule.apply` / `Proof.append`: Python passes
`None`, an `int`, or a list whose elements are ints or int lists
(subproof sections). -/
inductive Arg where
  | line (n : Nat)
  | sec (l : List Nat)
deriving DecidableEq, Repr

inductive LinesArg where
  | nil
  | one (n : Nat)
  | many (args : List Arg)
deriving DecidableEq, Repr

/-- The derivable formula(s) computed by `Rule.apply` (`&E` yields a pair). -/
inductive NewThm where
  | one (s : Sentence)
  | pair (a b : Sentence)
deriving DecidableEq, Repr

/-! ## The proof ledger (`proof.py`) -/

structure Proof where
  theorems : List Sentence
  premises : List Sentence
  rules : List Rule
  indents : List Int
  accesses : List Nat
deriving DecidableEq, Repr

/-- `Proof.__init__` from already-parsed premises. -/
def Proof.ofSentences (premises : List Sentence) : Proof :=
  { theorems := premises
    premises := premises
    rules := premises.map (fun _ => ⟨"Premise", []⟩)
    indents := premises.map (fun _ => 0)
    accesses := premises.map (fun _ => 1) }

/-- `Proof.__init__` from formula strings (each is parsed). -/
def Proof.ofStrings (strs : List (List Char)) : Option Proof := do
  let prems ← strs.mapM Sentence.ofChars
  pure (Proof.ofSentences prems)

def Proof.len (p : Proof) : Nat := p.theorems.length

/-- `Proof.indent` property: indentation of the last line, `0` when empty. -/
def Proof.indent (p : Proof) : Int := (p.indents.getLast?).getD 0

/-- `Proof.line` property: the number of the most recent line. -/
def Proof.line (p : Proof) : Nat := p.len

/-- `Proof.access` property: scope code of the last line, `1` when empty. -/
def Proof.access (p : Proof) : Nat := (p.accesses.getLast?).getD 1

/-- `Proof.__getitem__` for an int index: `theorems[line - 1]`.  Index `0`
hits Python's `-1`, the last element. -/
def Proof.get (p : Proof) (line : Nat) : Option Sentence :=
  if line = 0 then p.theorems.getLast? else p.theorems.get? (line - 1)

/-- `rule == Rule('Assume')` in `append_sentence`: class `Rule` defines no
`__eq__`, so Python falls back to object identity against a freshly
constructed object, which is always `False`. -/
def ruleIsAssumeObj (_ : Rule) : Bool := false

/-- `Proof._get_access`: scope code for a new `Assume` starting at `indent`.
`none` models the `ValueError` of `max([])` when lines at the indent exist
but none has a code of the matching digit length. -/
def Proof.getAccess (p : Proof) (indent : Int) : Option Nat :=
  if indent ∉ p.indents then some (10 * p.access + 1)
  else
    match (p.accesses.filter (fun a => (digitLen a : Int) = indent + 1)).max? with
    | none => none
    | some m => some (m + 1)

/-- `Proof.append_sentence`.  Python's `if not access:` treats both `None`
and `0` as "not given", so an explicit access of `0` (as produced by
closing from a one-digit code) re-enters the computed branch. -/
def Proof.newAccess (p : Proof) (indent : Int) (rule : Rule)
    (access : Option Nat) : Option Nat :=
  if access.getD 0 = 0 then
    if ruleIsAssumeObj rule || indent > p.indent then p.getAccess indent
    else if indent = p.indent then pure p.access
    else pure (p.access / 10)
  else pure (access.getD 0)

def Proof.appendSentence (p : Proof) (indent : Int) (thm : Sentence)
    (rule : Rule) (access : Option Nat) : Option Proof :=
  match p.newAccess indent rule access with
  | none => none
  | some acc => some { p with
      theorems := p.theorems ++ [thm]
      rules := p.rules ++ [rule]
      indents := p.indents ++ [indent]
      accesses := p.accesses ++ [acc] }

/-- `Proof.pop`: remove the last element of each ledger list (`none` models
the `IndexError` of popping an empty list). -/
def Proof.popOp (p : Proof) : Option Proof :=
  if p.indents.isEmpty ∨ p.theorems.isEmpty ∨ p.rules.isEmpty ∨
      p.accesses.isEmpty then none
  else some { p with
    theorems := p.theorems.dropLast
    rules := p.rules.dropLast
    indents := p.indents.dropLast
    accesses := p.accesses.dropLast }

/-- `Proof._can_access`: line `accessee` sees line `accessed` iff the digit
string of `accessed`''s code is a prefix of the digit string of `accessee`''s
code (Python: `str(a_accessee).startswith(str(a_accessed))`); an accessee
one past the end is treated as the current last line. -/
def Proof.canAccess (p : Proof) (accessee accessed : Nat) : Option Bool := do
  let accessee := if accessee = p.len + 1 then accessee - 1 else accessee
  let readAt := fun (i : Nat) =>
    if i = 0 then p.accesses.getLast? else p.accesses.get? (i - 1)
  let x ← readAt accessee
  let y ← readAt accessed
  pure (List.isPrefixOf (decDigits y) (decDigits x))

/-- `Proof.accessible`: the visible `(sentence, line)` pairs in ledger
order. -/
def accessibleGo (p : Proof) (accessee : Nat) :
    List Nat → Option (List (Sentence × Nat))
  | [] => some []
  | i :: rest => do
    let b ← p.canAccess accessee i
    if b then do
      let t ← p.get i
      let r ← accessibleGo p accessee rest
      pure ((t, i) :: r)
    else accessibleGo p accessee rest

def Proof.accessibleList (p : Proof) (accessee : Nat) :
    Option (List (Sentence × Nat)) :=
  accessibleGo p accessee (List.range' 1 p.len)

/-- `Proof.priors`: what the line one past the current end can see. -/
def Proof.priorsList (p : Proof) : Option (List (Sentence × Nat)) :=
  p.accessibleList p.line

/-! ## The rule engine (`rule.py`, `Rule.apply`) -/

/-- `Rule._section_order`: order two cited subproof sections for display. -/
def sectionOrder (lines : List Arg) (start stop : Nat) : Option (List Cited) := do
  let sa ← match lines.get? start with | some (.sec l) => some l | _ => none
  let sb ← match lines.get? stop with | some (.sec l) => some l | _ => none
  let a ← sa.get? start
  let b ← sb.get? start
  let ha ← sa.head?
  let la ← sa.getLast?
  let hb ← sb.head?
  let lb ← sb.getLast?
  if b < a then pure [Cited.range hb lb, Cited.range ha la]
  else pure [Cited.range ha la, Cited.range hb lb]

/-- The ints appearing directly in a lines list (`[arg for arg in lines if
isinstance(arg, int)]`). -/
def intArgs (args : List Arg) : List Cited :=
  args.filterMap (fun a => match a with | .line n => some (.line n) | _ => none)

/-- The rule dispatch of `Rule.apply`: compute, from the ledger, the rule
record, the derivable formula(s), the new indentation, and the new scope
code.  No validity checking is performed.  `none` wherever Python raises
(including the unconditional `TypeError` in the `>I` case, which subscripts
the type `str` itself). -/
def Rule.applyCore (rule : String) (premises : Proof) (lines : LinesArg)
    (other : Option Sentence) (fl : Bool) :
    Option (Rule × NewThm × Int × Nat) := do
  let indent := premises.indent
  match rule with
  | "assume" =>
    let indent := indent + (if fl then 1 else 0)
    let acc ← premises.getAccess indent
    -- Python would happily return a `None` theorem when `other` is not
    -- given; no caller of the embedding does that.
    let thm ← other
    pure (⟨"Assume", []⟩, .one thm, indent, acc)
  | "reit" =>
    match lines with
    | .one n => do
      let thm ← premises.get n
      pure (⟨"Reit", [.line n]⟩, .one thm, indent, premises.access)
    | _ => none
  | "#E" =>
    match lines with
    | .one n => do
      let thm ← other
      pure (⟨"#Elim", [.line n]⟩, .one thm, indent, premises.access)
    | _ => none
  | "#I" =>
    match lines with
    | .many args => do
      pure (⟨"#Intro", intArgs args⟩, .one ⟨.leaf '#' ['#']⟩, indent,
            premises.access)
    | _ => none
  | "~E" =>
    match lines with
    | .one n => do
      let t ← premises.get n
      let f1 ← t.first
      let f2 ← f1.first
      pure (⟨"~Elim", [.line n]⟩, .one f2, indent, premises.access)
    | _ => none
  | "~I" =>
    match lines with
    | .many args => do
      let ns := args.filterMap (fun a => match a with | Arg.line n => some n | _ => none)
      let lo ← ns.min?
      let hi ← ns.max?
      let t ← premises.get lo
      let thm ← t.negate
      pure (⟨"~Intro", [.range lo hi]⟩, .one thm, indent - 1,
            premises.access / 10)
    | _ => none
  | "&E" =>
    match lines with
    | .one n => do
      let t ← premises.get n
      let f ← t.first
      let s ← t.second
      pure (⟨"&Elim", [.line n]⟩, .pair f s, indent, premises.access)
    | _ => none
  | "&I" =>
    match lines with
    | .many args => do
      let a ← match args.get? 0 with | some (.line n) => some n | _ => none
      let b ← match args.get? 1 with | some (.line n) => some n | _ => none
      let ta ← premises.get a
      let tb ← premises.get b
      pure (⟨"&Intro", [.line (min a b), .line (max a b)]⟩,
            .one (ta.join (some tb) '&'), indent, premises.access)
    | _ => none
  | "vE" =>
    match lines with
    | .many args => do
      let sec1 ← match args.get? 1 with | some (.sec l) => some l | _ => none
      let lastOf1 ← sec1.getLast?
      let thm ← premises.get lastOf1
      let ordered ← sectionOrder args 1 2
      pure (⟨"vElim", intArgs args ++ ordered⟩, .one thm, indent - 1,
            premises.access / 10)
    | _ => none
  | "vI" =>
    match lines with
    | .one n => do
      let t ← premises.get n
      let o ← other
      let thm := if !fl then o.join (some t) 'v' else t.join (some o) 'v'
      pure (⟨"vIntro", [.line n]⟩, .one thm, indent, premises.access)
    | _ => none
  | ">E" =>
    match lines with
    | .many args => do
      let a ← match args.get? 0 with | some (.line n) => some n | _ => none
      let b ← match args.get? 1 with | some (.line n) => some n | _ => none
      let ta ← premises.get a
      let tb ← premises.get b
      let isCond := ta.mcS = '>' &&
        (match ta.first with | some f => f.eqS tb | none => false)
      let conditional := if isCond then ta else tb
      let thm ← conditional.second
      pure (⟨">Elim", [.line (min a b), .line (max a b)]⟩, .one thm, indent,
            premises.access)
    | _ => none
  | ">I" =>
    -- `f-string` in the source subscripts the type `str` itself
    -- (`str[min(lines[-1])]`), an unconditional `TypeError`.
    none
  | "-E" =>
    match lines with
    | .many args => do
      let a ← match args.get? 0 with | some (.line n) => some n | _ => none
      let b ← match args.get? 1 with | some (.line n) => some n | _ => none
      let ta ← premises.get a
      let tb ← premises.get b
      let conditional := if ta.mcS = '>' then ta else tb
      let fc ← conditional.first
      let thm ← if fc.eqS ta then conditional.second else conditional.first
      pure (⟨"-Elim", [.line (min a b), .line (max a b)]⟩, .one thm, indent,
            premises.access)
    | _ => none
  | "-I" =>
    match lines with
    | .many args => do
      let sec0 ← match args.get? 0 with | some (.sec l) => some l | _ => none
      let h0 ← sec0.head?
      let l0 ← sec0.getLast?
      let t1 ← premises.get h0
      let t2 ← premises.get l0
      let ordered ← sectionOrder args 0 1
      pure (⟨"-Intro", ordered⟩, .one (t1.join (some t2) '-'), indent - 1,
            premises.access / 10)
    | _ => none
  | _ => none

/-- `Rule.apply`: reverse the lines list in place when `fl` is false, then
dispatch; the final value of the caller-visible `lines` object is returned
as the last component. -/
def Rule.apply (rule : String) (premises : Proof) (lines : LinesArg)
    (other : Option Sentence) (fl : Bool) :
    Option (Rule × NewThm × Int × Nat × LinesArg) :=
  let lines := match lines with
    | .many args => if !fl then .many args.reverse else .many args
    | x => x
  (Rule.applyCore rule premises lines other fl).map
    (fun r => (r.1, r.2.1, r.2.2.1, r.2.2.2, lines))

/-- `Proof.append`: apply the rule, pick the left or right component of a
pair result with `fl`, and append.  Returns the new ledger together with
the final value of the (possibly reversed-in-place) `lines` argument. -/
def Proof.appendOp (p : Proof) (rule : String := "assume")
    (lines : LinesArg := .nil) (other : Option Sentence := none)
    (fl : Bool := true) : Option (Proof × LinesArg) :=
  match Rule.apply rule p lines other fl with
  | none => none
  | some (r, new, indent, access, lines') =>
    let thm := match new with
      | .one s => s
      | .pair a b => if fl then a else b
    match p.appendSentence indent thm r (some access) with
    | none => none
    | some p' => some (p', lines')

/-! ## The automated prover (`prove.py`) -/

/-- A search flag `['pbc', sentence]`; list membership compares the tags and
the sentences elementwise (sentence comparison is render equality). -/
abbrev Flag := String × Sentence

def flagMem (flags : List Flag) (s : Sentence) : Bool :=
  flags.any (fun f => f.1 == "pbc" && f.2.eqS s)

/-- `str((sentence, line))`: Python renders the pair as
`(<repr sentence>, <line>)`, and `repr` of a `Sentence` is its spec
rendering. -/
def tupleChars (p : Sentence × Nat) : List Char :=
  '(' :: (p.1.render ++ (',' :: ' ' :: cs (toString p.2)) ++ [')'])

/-- `theorem.second not in proof.priors`: the generator yields
`(sentence, line)` tuples, so the membership test compares a `Sentence`
against tuples through `Sentence.__eq__`, i.e. equality of `str(sentence)`
with `str(tuple)` — which never holds, as a tuple rendering contains a
comma. -/
def notInPriors (s : Sentence) (priors : List (Sentence × Nat)) : Bool :=
  priors.all (fun p => !(s.render == tupleChars p))

/-- The `while proof.indent == indent: proof.pop()` loop on the failed
second-disjunct path. -/
def popWhile (p : Proof) (indent : Int) : Option Proof :=
  if p.indent = indent then
    match h : p.popOp with
    | none => none
    | some p' => popWhile p' indent

  else pure p
termination_by p.theorems.length
decreasing_by
  simp only [Proof.popOp] at h
  split at h
  · simp at h
  · simp only [Option.some.injEq] at h
    subst h
    rename_i hc
    push_neg at hc
    have hne : p.theorems ≠ [] := by
      have := hc.2.1
      simpa using this
    have hpos : 0 < p.theorems.length := List.length_pos.mpr hne
    simp only [List.length_dropLast]
    omega

/-- The inner `for antecedent, ant_line in proof.priors:` loop of the
conditional-elimination move, parameterized by the recursive `prove` call.
`.inl` propagates `return True`; `.inr` is loop exhaustion with the
(possibly grown) ledger — a failed `>E` line is *not* retracted.  The
generator's index range and accessee are fixed at loop entry, but each
yield re-reads visibility and the sentence from the current ledger. -/
def impLoopGo (proveRec : Sentence → Proof → Int → List Flag → Option (Bool × Proof))
    (conclusion : Sentence) (indent : Int) (flags : List Flag)
    (thm : Sentence) (line : Nat) (accessee : Nat) :
    Proof → List Nat → Option ((Bool × Proof) ⊕ Proof)
  | proof, [] => pure (.inr proof)
  | proof, j :: rest => do
    let vis ← proof.canAccess accessee j
    if !vis then
      impLoopGo proveRec conclusion indent flags thm line accessee proof rest
    else do
      let antecedent ← proof.get j
      let priorsNow ← proof.priorsList
      let firstMatches := match thm.first with
        | some f => antecedent.eqS f
        | none => false
      let secondNotIn := match thm.second with
        | some s => notInPriors s priorsNow
        | none => true
      if firstMatches && secondNotIn then do
        let (p1, _) ← proof.appendOp ">E" (.many [.line j, .line line]) none true
        let (ok, p2) ← proveRec conclusion p1 indent flags
        if ok then pure (.inl (true, p2))
        else impLoopGo proveRec conclusion indent flags thm line accessee p2 rest
      else impLoopGo proveRec conclusion indent flags thm line accessee proof rest

/-- The `for theorem, line in proof.priors:` loop of `prove`, parameterized
by the recursive `prove` call.  The generator's index range and accessee
are fixed when the loop starts, but each yield re-reads visibility and the
sentence from the current (mutated) ledger. -/
def proveLoopGo (proveRec : Sentence → Proof → Int → List Flag → Option (Bool × Proof))
    (conclusion : Sentence) (indent : Int) (flags : List Flag)
    (accessee : Nat) : Proof → List Nat → Option (Bool × Proof)
  | proof, [] => pure (false, proof)
  | proof, i :: rest => do
    let vis ← proof.canAccess accessee i
    if !vis then proveLoopGo proveRec conclusion indent flags accessee proof rest
    else do
      let thm ← proof.get i
      match thm.mcS with
      | 'v' =>
        if flagMem flags thm then
          proveLoopGo proveRec conclusion indent flags accessee proof rest
        else do
          let flags' := flags ++ [("pbc", thm)]
          let (p1, _) ← proof.appendOp "assume" .nil thm.first true
          let d1s := p1.line
          let (ok1, p2) ← proveRec conclusion p1 (indent + 1) flags'
          if !ok1 then do
            let p3 ← p2.popOp
            proveLoopGo proveRec conclusion indent flags accessee p3 rest
          else do
            let d1e := p2.line
            let (p4, _) ← p2.appendOp "assume" .nil thm.second false
            let d2s := p4.line
            let (ok2, p5) ← proveRec conclusion p4 (indent + 1) flags'
            if !ok2 then do
              let p6 ← p5.popOp
              let p7 ← popWhile p6 indent
              proveLoopGo proveRec conclusion indent flags accessee p7 rest
            else do
              let d2e := p5.line
              let (p8, _) ← p5.appendOp "vE"
                (.many [.line i, .sec [d1s, d1e], .sec [d2s, d2e]]) none true
              let (ok3, p9) ← proveRec conclusion p8 indent flags
              if ok3 then pure (true, p9)
              else proveLoopGo proveRec conclusion indent flags accessee p9 rest
      | '>' => do
        let r ← impLoopGo proveRec conclusion indent flags thm i proof.line
          proof (List.range' 1 proof.len)
        match r with
        | .inl res => pure res
        | .inr p' => proveLoopGo proveRec conclusion indent flags accessee p' rest
      | _ => proveLoopGo proveRec conclusion indent flags accessee proof rest

/-- `prove` (fueled on the recursion depth; exhaustion yields `none`):
succeed if the goal is already visible at the current depth; on a
conditional goal the source appends the antecedent assumption and then
calls the four-argument `prove` with only two arguments, an unconditional
`TypeError` (`none`); otherwise run the premise-driven moves. -/
def proveF : Nat → Sentence → Proof → Int → List Flag → Option (Bool × Proof)
  | 0, _, _, _, _ => none
  | fuel + 1, conclusion, proof, indent, flags => do
    let priors ← proof.priorsList
    if priors.any (fun pr => conclusion.eqS pr.1) ∧ proof.indent = indent then
      pure (true, proof)
    else
      match conclusion.mcS with
      | '>' => do
        let _ ← proof.appendOp "assume" .nil conclusion.first true
        none
      | _ =>
        proveLoopGo (fun c p i f => proveF fuel c p i f) conclusion indent
          flags proof.line proof (List.range' 1 proof.len)

/-- Ample fuel for the concrete scenarios settled below. -/
def FUEL : Nat := 300

/-- `Proof.prove`: the two trivial-rejection checks, then the search.
`premises_tf < conclusion_tf` has no `__lt__` behind it, so Python
evaluates the reflected `conclusion_tf.__gt__(premises_tf)`; with an empty
premise list `Sentence.connect` returns `None` and `None.tf` raises an
`AttributeError` (`none` here). -/
def Proof.prove (p : Proof) (conclusion : Sentence) :
    Option (String × Proof) := do
  let earlyNotProvable ←
    if p.premises.length = 0 then do
      let t ← tautCheck conclusion true
      pure (!t)
    else pure false
  if earlyNotProvable then pure ("Not provable.", p)
  else
    match Sentence.connect p.premises '&' with
    | none => none
    | some conj => do
      let lt ← gtTF conclusion conj
      if lt then pure ("Not provable from given premises.", p)
      else do
        let (ok, p') ← proveF FUEL conclusion p 0 []
        pure (if ok then "Proved." else "Failed to prove.", p')

/-- End-to-end entry: build the ledger from premise strings and prove the
goal string, returning the status and the final ledger. -/
def proveStrings (premises : List String) (goal : String) :
    Option (String × Proof) := do
  let p ← Proof.ofStrings (premises.map cs)
  let c ← Sentence.ofChars (cs goal)
  p.prove c

/-! ## Round-trip helpers (for the parser idempotence claim) -/

/-- `render(parse(text))`: the spec rendering of the parsed sentence. -/
def parseRender (t : List Char) : Option (List Char) :=
  (Sentence.ofChars t).map Sentence.render

/-- `render(parse(text)) == render(parse(render(parse(text))))`. -/
def roundTripOK (t : List Char) : Bool :=
  match parseRender t with
  | none => false
  | some r1 => parseRender r1 == some r1

/-- A representative grammar-covering set of formulas: atomics, the
constant, each binary connective, wide- and narrow-scope negation, nesting,
bracket and spec-symbol input, and flat chains of up to four operands. -/
def grammarSet : List (List Char) :=
  [cs "P", cs "#", cs "~P", cs "~~P", cs "~(PvQ)", cs "PvQ", cs "P&Q",
   cs "P^Q", cs "P>Q", cs "P-Q", cs "PvQvR", cs "PvQvRvS", cs "(PvQ)&R",
   cs "P>(Q>R)", cs "(P>Q)>R", cs "~(P&~Q)vR", cs "P ∨ Q", cs "[PvQ]&R",
   cs "~(R - (~S v T))", cs "(R & S & ~T) v (~R & ~S)", cs "P&Q&R",
   cs "P>Q>R>S", cs "Pv(QvR)", cs "(PvQ)vR", cs "~#", cs "#vP"]

/-! # Claims -/

/-! ### C9 — pop is a left inverse of append_sentence -/

/-- C9.  For every proof state and every successful `append_sentence`, an
immediately following `pop` restores the theorems, rules, indentation
levels, and scope-code (accesses) sequences — the whole ledger state,
premise bookkeeping included — exactly to their values before the append. -/
theorem pop_undoes_appendSentence (p : Proof) (indent : Int) (thm : Sentence)
    (rule : Rule) (access : Option Nat) (q : Proof)
    (h : p.appendSentence indent thm rule access = some q) :
    q.popOp = some p := by
  unfold Proof.appendSentence at h
  cases hacc : p.newAccess indent rule access with
  | none => rw [hacc] at h; exact Option.noConfusion h
  | some acc =>
    rw [hacc] at h
    have h2 : { p with
        theorems := p.theorems ++ [thm]
        rules := p.rules ++ [rule]
        indents := p.indents ++ [indent]
        accesses := p.accesses ++ [acc] } = q := Option.some.inj h
    subst h2
    cases p with
    | mk t pr r i a => simp [Proof.popOp, List.dropLast_concat]

/-- C9 witness: a concrete append followed by pop. -/
theorem pop_undoes_appendSentence_witness :
    Proof.popOp ⟨[⟨.leaf 'P' ['P']⟩], [], [⟨"Premise", []⟩], [0], [1]⟩ =
      some (Proof.ofSentences []) :=
  pop_undoes_appendSentence (Proof.ofSentences []) 0 ⟨.leaf 'P' ['P']⟩
    ⟨"Premise", []⟩ (some 1) _ rfl

/-! ### C10 — fl=False reverses the cited-lines list in place -/

/-- C10.  Whenever `Rule.apply` — and hence `Proof.append` — is called with
`fl` set to `False` and a list of cited lines, the caller's list object is
reversed in place: after the call the lines value is the reverse of the one
passed in. -/
theorem apply_reverses_lines (rule : String) (p : Proof) (args : List Arg)
    (other : Option Sentence) :
    (∀ r, Rule.apply rule p (.many args) other false = some r →
        r.2.2.2.2 = .many args.reverse) ∧
    (∀ q, Proof.appendOp p rule (.many args) other false = some q →
        q.2 = .many args.reverse) := by
  have h1 : ∀ r, Rule.apply rule p (.many args) other false = some r →
      r.2.2.2.2 = .many args.reverse := by
    intro r h
    simp only [Rule.apply, Option.map_eq_some'] at h
    obtain ⟨x, -, rfl⟩ := h
    rfl
  refine ⟨h1, ?_⟩
  intro q h
  unfold Proof.appendOp at h
  split at h
  · exact Option.noConfusion h
  · rename_i r1 new ind acc la heq
    cases new <;>
    · simp only [] at h
      split at h
      · exact Option.noConfusion h
      · rename_i p' heq2
        have h2 : (p', la) = q := Option.some.inj h
        subst h2
        exact h1 _ heq

/-- C10 witness: a concrete `#I` application through `Proof.append` with
`fl = False` leaves the cited-lines list `[3, 5]` reversed to `[5, 3]`. -/
theorem apply_reverses_lines_witness :
    ((⟨⟨[⟨.leaf '#' ['#']⟩], [], [⟨"#Intro", [.line 5, .line 3]⟩], [0], [1]⟩,
        LinesArg.many [Arg.line 5, Arg.line 3]⟩ : Proof × LinesArg)).2 =
      LinesArg.many [Arg.line 5, Arg.line 3] ∧
    LinesArg.many [Arg.line 5, Arg.line 3] =
      LinesArg.many ([Arg.line 3, Arg.line 5].reverse) :=
  ⟨(apply_reverses_lines "#I" (Proof.ofSentences []) [.line 3, .line 5]
      none).2 _ rfl, rfl⟩

/-! ### C1 — end-to-end scenario: P∨Q, P→R, Q→R ⊢ R -/

/-- C1.  `prove` on the ledger with premises P∨Q, P→R, Q→R and goal R
returns the status string "Proved.", and the final ledger line holds a
sentence structurally equal (`Sentence.__eq__`) to R. -/
theorem prove_disjunction_scenario :
    (proveStrings ["PvQ", "P>R", "Q>R"] "R").map Prod.fst = some "Proved." ∧
    (do let r ← proveStrings ["PvQ", "P>R", "Q>R"] "R"
        let last ← r.2.theorems.getLast?
        let goal ← Sentence.ofChars (cs "R")
        pure (last.eqS goal)) = some true :=
  ⟨rfl, rfl⟩

/-! ### C3 — empty premises, tautologous goal: the code crashes -/

/-- C3 (the code, at the claim's input).  With no premises and the
tautologous goal P∨¬P the tautology check succeeds, but
`Sentence.connect([], '&')` is `None`, the following `None.tf` attribute
access raises, and `prove` crashes instead of returning "Proved.". -/
theorem prove_empty_tautology_crashes :
    ((Sentence.ofChars (cs "Pv~P")).bind (fun c => tautCheck c true)) =
      some true ∧
    Sentence.connect ([] : List Sentence) '&' = none ∧
    proveStrings [] "Pv~P" = none :=
  ⟨rfl, rfl, rfl⟩

/-! ### C4 — premise P, goal Q: which failure string? -/

/-- C4 counterexample.  With the single premise P and goal Q, `prove`
returns "Failed to prove.", not "Not provable from given premises.": the
claim as stated is false on the code. -/
theorem prove_incomparable_counterexample :
    (proveStrings ["P"] "Q").map Prod.fst = some "Failed to prove." ∧
    (proveStrings ["P"] "Q").map Prod.fst ≠
      some "Not provable from given premises." := by
  have h : (proveStrings ["P"] "Q").map Prod.fst = some "Failed to prove." :=
    rfl
  refine ⟨h, ?_⟩
  rw [h]
  decide

/-- C4 (amended).  `prove` on premise P with goal Q returns
"Failed to prove.": since `TruthFunction` defines no `__lt__`, the
pre-check `premises.tf < conclusion.tf` evaluates the reflected
`conclusion.tf > premises.tf` — "goal strictly stronger than the premise
conjunction" — which is false for this incomparable pair, so no rejection
happens before the search; the search then exhausts and reports failure. -/
theorem prove_incomparable_amended :
    (do let q ← Sentence.ofChars (cs "Q")
        let p ← Sentence.ofChars (cs "P")
        gtTF q p) = some false ∧
    (proveStrings ["P"] "Q").map Prod.fst = some "Failed to prove." :=
  ⟨rfl, rfl⟩

/-! ### C7 — render∘parse idempotence -/

/-- C7 counterexample.  The well-formed five-operand chain A∨B∨C∨D∨E parses
and renders to "(A ∨ B) ∨ C ∨ D ∨ E", but reparsing that rendering renders
as "((A ∨ B) ∨ C) ∨ D ∨ E": render∘parse is not idempotent, and the root
node's canonical formula does not reparse to a structurally equal tree. -/
theorem roundtrip_five_chain_counterexample :
    parseRender (cs "AvBvCvDvE") = some (cs "(A ∨ B) ∨ C ∨ D ∨ E") ∧
    ((parseRender (cs "AvBvCvDvE")).bind parseRender) =
      some (cs "((A ∨ B) ∨ C) ∨ D ∨ E") ∧
    ((parseRender (cs "AvBvCvDvE")).bind parseRender) ≠
      parseRender (cs "AvBvCvDvE") := by
  refine ⟨rfl, rfl, ?_⟩
  intro h
  rw [show ((parseRender (cs "AvBvCvDvE")).bind parseRender) =
      some (cs "((A ∨ B) ∨ C) ∨ D ∨ E") from rfl,
    show parseRender (cs "AvBvCvDvE") =
      some (cs "(A ∨ B) ∨ C ∨ D ∨ E") from rfl] at h
  exact absurd h (by decide)

/-- C7 (amended).  render∘parse is an idempotent canonicalization for every
formula of the representative grammar-covering set whose flat same-depth
chains span at most four operands; the original universal claim fails from
five-operand chains on. -/
theorem roundtrip_grammar_set : grammarSet.all roundTripOK = true := by
  rfl

/-! ### C5 — entailment antisymmetry -/

/-- C5 counterexample.  For a = P and b = P∧(Q∨¬Q) both `a.tf ≥ b.tf` and
`b.tf ≥ a.tf` hold, yet `equivalent(a, b)` is false — truth-function
equality is sensitive to the specific atomic variables, so mutual
entailment does not imply it. -/
theorem entail_antisym_counterexample :
    (do let a ← Sentence.ofChars (cs "P")
        let b ← Sentence.ofChars (cs "P&(Qv~Q)")
        pure ((← geTF a b), (← geTF b a), (← equivalentS a b))) =
      some (true, true, false) :=
  rfl

/-! ### C8 — scope-code visibility -/

/-- A seven-line ledger built with the public `append` operation:
premise P (code 1); assume Q (code 11); assume R (code 111); ¬-introduction
closing to code 11; ¬-introduction closing to code 1 — the box with code 11
is now closed; assume S (code 12); assume T at depth 2 — `_get_access`
computes its code as the per-depth maximum plus one, i.e. 112, which
extends the code of the closed box 11. -/
def reopenedState : Option Proof := do
  let p0 ← Proof.ofStrings [cs "P"]
  let (p1, _) ← p0.appendOp "assume" .nil (Sentence.ofChars (cs "Q")) true
  let (p2, _) ← p1.appendOp "assume" .nil (Sentence.ofChars (cs "R")) true
  let (p3, _) ← p2.appendOp "~I" (.many [.line 3, .line 3]) none true
  let (p4, _) ← p3.appendOp "~I" (.many [.line 4, .line 4]) none true
  let (p5, _) ← p4.appendOp "assume" .nil (Sentence.ofChars (cs "S")) true
  let (p6, _) ← p5.appendOp "assume" .nil (Sentence.ofChars (cs "T")) true
  pure p6

/-- C8 counterexample.  In `reopenedState`, line 2 lies inside the box with
code 11, which has closed by line 5 (line 2 is not visible from there); yet
line 2 is visible from line 7, appended after the close — a line inside a
closed assumption box becomes visible again. -/
theorem closed_box_visible_again :
    reopenedState.map Proof.accesses = some [1, 11, 111, 11, 1, 12, 112] ∧
    (reopenedState.bind (fun p => p.canAccess 5 2)) = some false ∧
    (reopenedState.bind (fun p => p.canAccess 7 2)) = some true ∧
    (reopenedState.bind (fun p => p.accessibleList 7)).map
      (fun l => l.any (fun pr => pr.2 == 2)) = some true :=
  ⟨rfl, rfl, rfl, rfl⟩

/-! ### C6 — totality of the truth-function enumeration -/

/-- Shape-wellformedness of a tree: every node that the evaluator treats as
a connective has the children it will evaluate (true of every tree the
parser or the joining constructors build, whose negations are unary nodes
and whose binary connectives are binary nodes). -/
def Symbol.wfB : Symbol → Bool
  | .leaf s _ => s = '#' || (s != '~' && !(s ∈ BINARIES : Bool))
  | .unary s c _ =>
    if s = '#' then true
    else if s = '~' then c.wfB
    else if s ∈ BINARIES then c.wfB
    else true
  | .binary s l r _ =>
    if s = '#' then true
    else if s = '~' then l.wfB
    else if s ∈ BINARIES then l.wfB && r.wfB
    else true

/-- Well-formedness of a sentence: the tree has the children its evaluator
needs, and every atomic name the evaluation may look up occurs among the
distinct atomics extracted from the formula text (both are true of every
sentence the parser or the joining constructors build). -/
def wfS (s : Sentence) : Prop :=
  s.root.wfB = true ∧ ∀ c ∈ s.root.atoms, c ∈ atomicsOf s

theorem assignRow_keys (A : List Char) (n i : Nat) :
    ∀ j, (assignRow A n i j).map Prod.fst = A := by
  induction A with
  | nil => intro j; rfl
  | cons a rest ih => intro j; simp [assignRow, ih (j + 1)]

theorem assignRow_get? (A : List Char) (n i : Nat) :
    ∀ j k, (assignRow A n i j).get? k =
      (A.get? k).map (fun a => (a, i / 2 ^ (n - (j + k) - 1) % 2 == 0)) := by
  induction A with
  | nil => intro j k; simp [assignRow]
  | cons a rest ih =>
    intro j k
    cases k with
    | zero => simp [assignRow]
    | succ k' =>
      simp only [assignRow, List.get?_cons_succ, ih (j + 1) k']
      have : j + 1 + k' = j + (k' + 1) := by omega
      rw [this]

theorem assignRow_lookup (A : List Char) (n i : Nat) (hA : A.Nodup) :
    ∀ j k a, A.get? k = some a →
      (assignRow A n i j).lookup a =
        some (i / 2 ^ (n - (j + k) - 1) % 2 == 0) := by
  induction A with
  | nil => intro j k a hget; simp at hget
  | cons hd tl ih =>
    intro j k a hget
    cases hA with
    | cons hnotmem htl =>
      cases k with
      | zero =>
        simp only [List.get?_cons_zero, Option.some.injEq] at hget
        subst hget
        simp [assignRow, List.lookup]
      | succ k' =>
        simp only [List.get?_cons_succ] at hget
        have hmem : a ∈ tl := List.get?_mem hget
        have hbeq : (a == hd) = false := by
          simp only [beq_eq_false_iff_ne, ne_eq]
          intro hcontra
          exact hnotmem a hmem hcontra.symm
        simp only [assignRow, List.lookup, hbeq]
        rw [ih htl (j + 1) k' a hget]
        have harith : n - (j + 1 + k') - 1 = n - (j + (k' + 1)) - 1 := by
          omega
        rw [harith]

/-- `(i / 2^b % 2 == 0)` is the complement of bit `b` of `i`. -/
theorem div_mod_bit (m b : Nat) :
    ((m / 2 ^ b % 2 == 0) : Bool) = !(m.testBit b) := by
  rw [Nat.testBit_to_div_mod]
  rcases Nat.mod_two_eq_zero_or_one (m / 2 ^ b) with h | h <;> simp [h]

theorem mem_insDedup (c a : Char) : ∀ l, a ∈ insDedup c l ↔ a = c ∨ a ∈ l := by
  intro l
  induction l with
  | nil => simp [insDedup]
  | cons d t ih =>
    by_cases h1 : c < d
    · simp [insDedup, h1]
    · by_cases h2 : c = d
      · subst h2
        have hins : insDedup c (c :: t) = c :: t := by simp [insDedup, h1]
        rw [hins, List.mem_cons]
        tauto
      · simp only [insDedup, if_neg h1, if_neg h2, List.mem_cons, ih]
        tauto

theorem chain'_insDedup_cons (c : Char) :
    ∀ t (d : Char), d < c → List.Chain' (· < ·) (d :: t) →
      List.Chain' (· < ·) (d :: insDedup c t) := by
  intro t
  induction t with
  | nil =>
    intro d hdc _
    exact List.chain'_cons.mpr ⟨hdc, List.chain'_singleton c⟩
  | cons e t' ih =>
    intro d hdc hch
    rw [List.chain'_cons] at hch
    obtain ⟨hde, hch'⟩ := hch
    by_cases h1 : c < e
    · simp only [insDedup, if_pos h1]
      exact List.chain'_cons.mpr ⟨hdc, List.chain'_cons.mpr ⟨h1, (List.chain'_cons.mp (List.chain'_cons.mpr ⟨hde, hch'⟩)).2⟩⟩
    · by_cases h2 : c = e
      · simp only [insDedup, if_neg h1, if_pos h2]
        exact List.chain'_cons.mpr ⟨hde, hch'⟩
      · have hec : e < c := by
          rcases lt_trichotomy c e with h | h | h
          · exact absurd h h1
          · exact absurd h h2
          · exact h
        simp only [insDedup, if_neg h1, if_neg h2]
        exact List.chain'_cons.mpr ⟨hde, ih e hec hch'⟩

theorem chain'_insDedup (c : Char) :
    ∀ l, List.Chain' (· < ·) l → List.Chain' (· < ·) (insDedup c l) := by
  intro l hl
  cases l with
  | nil => exact List.chain'_singleton c
  | cons d t =>
    by_cases h1 : c < d
    · simp only [insDedup, if_pos h1]
      exact List.chain'_cons.mpr ⟨h1, hl⟩
    · by_cases h2 : c = d
      · simpa [insDedup, h1, h2] using hl
      · have hdc : d < c := by
          rcases lt_trichotomy c d with h | h | h
          · exact absurd h h1
          · exact absurd h h2
          · exact h
        simp only [insDedup, if_neg h1, if_neg h2]
        exact chain'_insDedup_cons c t d hdc hl

theorem chain'_sortedDedup (l : List Char) :
    List.Chain' (· < ·) (sortedDedup l) := by
  induction l with
  | nil => exact List.chain'_nil
  | cons c t ih => exact chain'_insDedup c _ ih

theorem nodup_sortedDedup (l : List Char) : (sortedDedup l).Nodup := by
  have h := chain'_sortedDedup l
  have hp : (sortedDedup l).Pairwise (· < ·) :=
    List.chain'_iff_pairwise.mp h
  exact hp.imp (fun hlt => ne_of_lt hlt)

theorem lookup_isSome_of_mem_keys (c : Char) :
    ∀ d : Assign, c ∈ d.map Prod.fst → (d.lookup c).isSome := by
  intro d
  induction d with
  | nil => simp
  | cons kv rest ih =>
    intro hmem
    simp only [List.map_cons, List.mem_cons] at hmem
    by_cases h : (c == kv.1) = true
    · simp [List.lookup, h]
    · rcases hmem with h1 | h1
      · exact absurd (beq_iff_eq.mpr h1) h
      · simpa [List.lookup, h] using ih h1

theorem eval_isSome (vals : Assign) :
    ∀ sym : Symbol, sym.wfB = true →
      (∀ c ∈ sym.atoms, (vals.lookup c).isSome) →
      (sym.eval vals).isSome := by
  intro sym
  induction sym with
  | leaf s f =>
    intro hwf h
    by_cases h1 : s = '#'
    · simp [Symbol.eval, h1]
    · simp only [Symbol.wfB, h1, decide_False, Bool.false_or,
        Bool.and_eq_true, bne_iff_ne, ne_eq, Bool.not_eq_true',
        decide_eq_false_iff_not] at hwf
      simp only [Symbol.eval, if_neg h1, if_neg hwf.1, if_neg hwf.2]
      exact h s (by simp [Symbol.atoms, h1, hwf.1, hwf.2])
  | unary s child f ih =>
    intro hwf h
    by_cases h1 : s = '#'
    · simp [Symbol.eval, h1]
    · by_cases h2 : s = '~'
      · simp only [Symbol.wfB, if_neg h1, if_pos h2] at hwf
        simp only [Symbol.atoms, if_neg h1, if_pos h2] at h
        simp only [Symbol.eval, if_neg h1, if_pos h2]
        obtain ⟨b, hb⟩ := Option.isSome_iff_exists.mp (ih hwf h)
        simp [hb]
      · by_cases h3 : s ∈ BINARIES
        · simp only [Symbol.wfB, if_neg h1, if_neg h2, if_pos h3] at hwf
          simp only [Symbol.atoms, if_neg h1, if_neg h2, if_pos h3] at h
          simp only [Symbol.eval, if_neg h1, if_neg h2, if_pos h3]
          obtain ⟨b, hb⟩ := Option.isSome_iff_exists.mp
            (ih hwf (fun c hc => h c (by simp [hc])))
          simp [hb, Option.bind]
        · simp only [Symbol.eval, if_neg h1, if_neg h2, if_neg h3]
          exact h s (by simp [Symbol.atoms, h1, h2, h3])
  | binary s l r f ihl ihr =>
    intro hwf h
    by_cases h1 : s = '#'
    · simp [Symbol.eval, h1]
    · by_cases h2 : s = '~'
      · simp only [Symbol.wfB, if_neg h1, if_pos h2] at hwf
        simp only [Symbol.atoms, if_neg h1, if_pos h2] at h
        simp only [Symbol.eval, if_neg h1, if_pos h2]
        obtain ⟨b, hb⟩ := Option.isSome_iff_exists.mp (ihl hwf h)
        simp [hb]
      · by_cases h3 : s ∈ BINARIES
        · simp only [Symbol.wfB, if_neg h1, if_neg h2, if_pos h3,
            Bool.and_eq_true] at hwf
          simp only [Symbol.atoms, if_neg h1, if_neg h2, if_pos h3] at h
          simp only [Symbol.eval, if_neg h1, if_neg h2, if_pos h3]
          obtain ⟨bl, hbl⟩ := Option.isSome_iff_exists.mp
            (ihl hwf.1 (fun c hc => h c (by simp [hc])))
          obtain ⟨br, hbr⟩ := Option.isSome_iff_exists.mp
            (ihr hwf.2 (fun c hc => h c (by simp [hc])))
          simp [hbl, hbr, Option.bind]
        · simp only [Symbol.eval, if_neg h1, if_neg h2, if_neg h3]
          exact h s (by simp [Symbol.atoms, h1, h2, h3])

theorem filter_partition_length (f : Assign → Option Bool) :
    ∀ l : List Assign, (∀ v ∈ l, (f v).isSome) →
      (l.filter (fun v => f v == some true)).length +
        (l.filter (fun v => f v == some false)).length = l.length := by
  intro l
  induction l with
  | nil => intro _; rfl
  | cons v rest ih =>
    intro h
    have hv := h v (by simp)
    obtain ⟨b, hb⟩ := Option.isSome_iff_exists.mp hv
    have hrest := ih (fun w hw => h w (by simp [hw]))
    cases b <;> simp [List.filter, hb, hrest] <;> omega

instance wfS.decidable (s : Sentence) : Decidable (wfS s) :=
  inferInstanceAs (Decidable (_ ∧ _))

/-- C6.  For every well-formed sentence, writing `A` for its sorted atomics
and `n = |A|`: the truth-function construction enumerates exactly `2^n`
assignments; `A` is strictly sorted; every enumerated assignment is a total
assignment over `A` in that order; the assignments are pairwise distinct;
assignment `i` maps the `k`-th atomic to `True` exactly when bit `n-1-k`
of `i` is clear (fixed binary-counting order, most significant atomic
first); and the satisfying/falsifying partition exactly covers the
enumeration. -/
theorem truthtable_canonical (s : Sentence) (hwf : wfS s) :
    (canonicalOf (atomicsOf s)).length = 2 ^ (atomicsOf s).length ∧
    List.Chain' (· < ·) (atomicsOf s) ∧
    (∀ v ∈ canonicalOf (atomicsOf s), v.map Prod.fst = atomicsOf s) ∧
    (canonicalOf (atomicsOf s)).Nodup ∧
    (∀ i k a, i < 2 ^ (atomicsOf s).length →
        (atomicsOf s).get? k = some a →
        ((canonicalOf (atomicsOf s)).get? i).bind (fun v => v.lookup a) =
          some (!(Nat.testBit i ((atomicsOf s).length - 1 - k)))) ∧
    (∀ v ∈ canonicalOf (atomicsOf s),
        (v ∈ truthTrue s ∧ v ∉ truthFalse s) ∨
        (v ∈ truthFalse s ∧ v ∉ truthTrue s)) ∧
    (∀ v ∈ truthTrue s, v ∈ canonicalOf (atomicsOf s)) ∧
    (∀ v ∈ truthFalse s, v ∈ canonicalOf (atomicsOf s)) ∧
    (truthTrue s).length + (truthFalse s).length =
      2 ^ (atomicsOf s).length := by
  have hchain : List.Chain' (· < ·) (atomicsOf s) := chain'_sortedDedup _
  have hnodupA : (atomicsOf s).Nodup := nodup_sortedDedup _
  set A := atomicsOf s with hA
  set n := A.length with hn
  have hkeys : ∀ v ∈ canonicalOf A, v.map Prod.fst = A := by
    intro v hv
    simp only [canonicalOf, List.mem_map, List.mem_range] at hv
    obtain ⟨i, -, rfl⟩ := hv
    exact assignRow_keys A n i 0
  have hgetcanon : ∀ i, i < 2 ^ n →
      (canonicalOf A).get? i = some (assignRow A n i 0) := by
    intro i hi
    simp [canonicalOf, List.get?_eq_getElem?, List.getElem?_map,
      List.getElem?_range, hi]
  have horder : ∀ i k a, i < 2 ^ n → A.get? k = some a →
      ((canonicalOf A).get? i).bind (fun v => v.lookup a) =
        some (!(Nat.testBit i (n - 1 - k))) := by
    intro i k a hi hget
    rw [hgetcanon i hi]
    show (assignRow A n i 0).lookup a = _
    rw [assignRow_lookup A n i hnodupA 0 k a hget]
    have hkn : k < n := by
      by_contra hk
      rw [List.get?_eq_none.mpr (by omega)] at hget
      exact Option.noConfusion hget
    have harith : n - (0 + k) - 1 = n - 1 - k := by omega
    rw [harith, div_mod_bit]
  have hnodup : (canonicalOf A).Nodup := by
    have : canonicalOf A = (List.range (2 ^ n)).map
        (fun i => assignRow A n i 0) := rfl
    rw [this]
    refine List.Nodup.map_on ?_ (List.nodup_range _)
    intro i hi i' hi' heq
    simp only [List.mem_range] at hi hi'
    apply Nat.eq_of_testBit_eq
    intro b
    by_cases hb : b < n
    · have hkn : n - 1 - b < n := by omega
      obtain ⟨a, hget⟩ : ∃ a, A.get? (n - 1 - b) = some a := by
        have := List.get?_eq_get (l := A) (n := n - 1 - b) hkn
        exact ⟨_, this⟩
      have h1 := assignRow_lookup A n i hnodupA 0 (n - 1 - b) a hget
      have h2 := assignRow_lookup A n i' hnodupA 0 (n - 1 - b) a hget
      rw [heq] at h1
      rw [h1] at h2
      simp only [Option.some.injEq] at h2
      have hexp : n - (0 + (n - 1 - b)) - 1 = b := by omega
      rw [hexp] at h2
      rw [div_mod_bit, div_mod_bit] at h2
      exact Bool.not_inj h2
    · push_neg at hb
      have h2b : 2 ^ n ≤ 2 ^ b := Nat.pow_le_pow_right (by omega) hb
      rw [Nat.testBit_lt_two_pow (by omega), Nat.testBit_lt_two_pow (by omega)]
  have hsome : ∀ v ∈ canonicalOf A, (s.root.eval v).isSome := by
    intro v hv
    refine eval_isSome v s.root hwf.1 ?_
    intro c hc
    refine lookup_isSome_of_mem_keys c v ?_
    rw [hkeys v hv]
    exact hwf.2 c hc
  have hpart : ∀ v ∈ canonicalOf A,
      (v ∈ truthTrue s ∧ v ∉ truthFalse s) ∨
      (v ∈ truthFalse s ∧ v ∉ truthTrue s) := by
    intro v hv
    obtain ⟨b, hb⟩ := Option.isSome_iff_exists.mp (hsome v hv)
    cases b with
    | true =>
      left
      constructor
      · exact List.mem_filter.mpr ⟨hv, by simp [hb]⟩
      · intro hmem
        have := (List.mem_filter.mp hmem).2
        simp [hb] at this
    | false =>
      right
      constructor
      · exact List.mem_filter.mpr ⟨hv, by simp [hb]⟩
      · intro hmem
        have := (List.mem_filter.mp hmem).2
        simp [hb] at this
  refine ⟨by simp [canonicalOf], hchain, hkeys, hnodup, horder, hpart,
    ?_, ?_, ?_⟩
  · intro v hv
    exact (List.mem_filter.mp hv).1
  · intro v hv
    exact (List.mem_filter.mp hv).1
  · have := filter_partition_length (fun v => s.root.eval v)
      (canonicalOf A) hsome
    simpa [truthTrue, truthFalse, canonicalOf] using this

/-- C6 witness: the parsed sentence P∨Q is well-formed and its canonical
enumeration has `2^n` assignments. -/
theorem truthtable_canonical_witness :
    wfS ⟨.binary 'v' (.leaf 'P' ['P']) (.leaf 'Q' ['Q']) (cs "PvQ")⟩ ∧
    (canonicalOf (atomicsOf
        ⟨.binary 'v' (.leaf 'P' ['P']) (.leaf 'Q' ['Q']) (cs "PvQ")⟩)).length =
      2 ^ (atomicsOf
        ⟨.binary 'v' (.leaf 'P' ['P']) (.leaf 'Q' ['Q']) (cs "PvQ")⟩).length :=
  ⟨by decide, (truthtable_canonical _ (by decide)).1⟩

/-! ### C5 — entailment antisymmetry over a common atomic set -/

theorem keys_canonical (A : List Char) :
    ∀ v ∈ canonicalOf A, v.map Prod.fst = A := by
  intro v hv
  simp only [canonicalOf, List.mem_map, List.mem_range] at hv
  obtain ⟨i, -, rfl⟩ := hv
  exact assignRow_keys A A.length i 0

theorem eval_isSome_on_row (t : Sentence) (v : Assign)
    (hwf : t.root.wfB = true)
    (hkeys : ∀ c ∈ t.root.atoms, c ∈ v.map Prod.fst) :
    (t.root.eval v).isSome :=
  eval_isSome v t.root hwf
    (fun c hc => lookup_isSome_of_mem_keys c v (hkeys c hc))

theorem mapM_eq_map {α β : Type} (f : α → Option β) (g : α → β) :
    ∀ l : List α, (∀ x ∈ l, f x = some (g x)) →
      l.mapM f = some (l.map g) := by
  intro l
  induction l with
  | nil => intro _; rfl
  | cons x rest ih =>
    intro h
    rw [List.mapM_cons, h x (by simp), ih (fun y hy => h y (by simp [hy]))]
    rfl

/-- The row built by `tfString` for an assignment whose evaluation is `b`. -/
def rowChars (vals : Assign) (b : Bool) (renderLen : Nat) : List Char :=
  joinSep (cs "  ") (vals.map (fun p => [if p.2 then 'T' else 'F'])) ++
    cs "  " ++ padTo (boolChars b) renderLen ++ ['\n']

theorem tfString_eq (s : Sentence) (g : Assign → Bool)
    (hg : ∀ v ∈ canonicalOf (atomicsOf s), s.root.eval v = some (g v)) :
    tfString s = some
      (joinSep (cs "  ") ((atomicsOf s).map ([·])) ++ cs "  " ++ ['\n'] ++
        ((canonicalOf (atomicsOf s)).map
          (fun v => rowChars v (g v) s.render.length)).flatten) := by
  have hmap : (canonicalOf (atomicsOf s)).mapM (tfRow s) =
      some ((canonicalOf (atomicsOf s)).map
        (fun v => rowChars v (g v) s.render.length)) := by
    refine mapM_eq_map _ _ _ ?_
    intro v hv
    simp [tfRow, rowChars, hg v hv]
  unfold tfString
  rw [hmap]
  rfl

theorem filter_replicate_space (k : Nat) :
    (List.replicate k ' ').filter (· ≠ ' ') = [] := by
  induction k with
  | zero => rfl
  | succ k ih => simp [List.replicate, List.filter, ih]

theorem filter_padTo (x : List Char) (n : Nat) :
    (padTo x n).filter (· ≠ ' ') = x.filter (· ≠ ' ') := by
  simp [padTo, List.filter_append, filter_replicate_space]

theorem filter_flatten_eq {p : Char → Bool} :
    ∀ L : List (List Char), L.flatten.filter p = (L.map (·.filter p)).flatten := by
  intro L
  induction L with
  | nil => rfl
  | cons x rest ih => simp [List.filter_append, ih]

theorem filter_rowChars (vals : Assign) (b : Bool) (m m' : Nat) :
    (rowChars vals b m).filter (· ≠ ' ') =
      (rowChars vals b m').filter (· ≠ ' ') := by
  simp only [rowChars, List.filter_append]
  rw [filter_padTo, filter_padTo]

/-- Once the carried value is false, the outer fold of `__gt__` stays false
without further evaluations. -/
theorem fold_false (evalb : Assign → Option Bool) :
    ∀ l : List Assign,
      (l.foldlM (fun cv vals =>
          if cv then ([([] : Assign)]).foldlM
            (fun c ov => if c then evalb (dictMerge vals ov) else pure false)
            true
          else pure false) false : Option Bool) = some false := by
  intro l
  induction l with
  | nil => rfl
  | cons x xs ihx =>
    rw [List.foldlM_cons]
    exact ihx

/-- The inner/outer short-circuiting fold of `__gt__`, specialized to an
empty exclusive-atomics set (one empty extension): it computes the
conjunction, over the satisfying assignments, of the right formula's
evaluations. -/
theorem gt_fold_char (evalb : Assign → Option Bool) :
    ∀ (trues : List Assign) (cv0 : Bool),
      (∀ v ∈ trues, (evalb v).isSome) →
      (trues.foldlM (fun cv vals =>
          if cv then ([([] : Assign)]).foldlM
            (fun c ov => if c then evalb (dictMerge vals ov) else pure false)
            true
          else pure false) cv0 : Option Bool) =
        some (cv0 && trues.all (fun v => evalb v == some true)) := by
  intro trues
  induction trues with
  | nil => intro cv0 _; simp
  | cons v rest ih =>
    intro cv0 h
    obtain ⟨bv, hbv⟩ := Option.isSome_iff_exists.mp (h v (by simp))
    have hrest := fun cv => ih cv (fun w hw => h w (by simp [hw]))
    cases cv0 with
    | false =>
      rw [fold_false]
      simp
    | true =>
      rw [List.foldlM_cons]
      show Option.bind ((evalb v).bind (fun c => some c))
          (fun b' => List.foldlM (fun cv vals =>
            if cv then ([([] : Assign)]).foldlM
              (fun c ov => if c then evalb (dictMerge vals ov) else pure false)
              true
            else pure false) b' rest) =
        some (true && (v :: rest).all (fun w => evalb w == some true))
      rw [hbv]
      simp only [Option.some_bind]
      rw [hrest bv]
      simp only [List.all_cons, hbv, Bool.true_and]
      cases bv <;> simp

theorem eqTF_some_iff (a b : Sentence) (x y : List Char)
    (hx : tfString a = some x) (hy : tfString b = some y) :
    eqTF a b = some (x.filter (· ≠ ' ') == y.filter (· ≠ ' ')) := by
  unfold eqTF
  rw [hx, hy]
  rfl

theorem geTF_if (a b : Sentence) (e : Bool) (he : eqTF a b = some e) :
    geTF a b = if e then some true else gtTF a b := by
  unfold geTF
  rw [he]
  cases e <;> rfl

theorem gtTF_char (a b : Sentence) (he : eqTF a b = some false)
    (hdiff : (atomicsOf b).filter (· ∉ atomicsOf a) = [])
    (hsb : ∀ v ∈ truthTrue a, (Symbol.eval v b.root).isSome) :
    gtTF a b =
      some ((truthTrue a).all (fun v => Symbol.eval v b.root == some true)) := by
  have hfold := gt_fold_char (fun x => Symbol.eval x b.root) (truthTrue a)
    true hsb
  unfold gtTF
  rw [he, hdiff]
  show ((truthTrue a).foldlM (fun cv vals =>
      if cv then (canonicalOf []).foldlM
        (fun c ov => if c then Symbol.eval (dictMerge vals ov) b.root
         else pure false) true
      else pure false) true : Option Bool) = _
  rw [show canonicalOf ([] : List Char) = [([] : Assign)] from rfl]
  simpa using hfold

theorem stripped_tfString_eq (a b : Sentence) (ga gb : Assign → Bool)
    (hga : ∀ v ∈ canonicalOf (atomicsOf a), Symbol.eval v a.root = some (ga v))
    (hgb : ∀ v ∈ canonicalOf (atomicsOf b), Symbol.eval v b.root = some (gb v))
    (hab : atomicsOf a = atomicsOf b)
    (hpoint : ∀ v ∈ canonicalOf (atomicsOf a), ga v = gb v) :
    ∃ x y, tfString a = some x ∧ tfString b = some y ∧
      x.filter (· ≠ ' ') = y.filter (· ≠ ' ') := by
  refine ⟨_, _, tfString_eq a ga hga, tfString_eq b gb hgb, ?_⟩
  rw [← hab]
  simp only [List.filter_append, filter_flatten_eq, List.map_map]
  congr 1
  congr 1
  refine List.map_congr_left ?_
  intro v hv
  simp only [Function.comp_apply]
  rw [hpoint v hv]
  exact filter_rowChars v (gb v) a.render.length b.render.length

/-- C5 (amended).  For well-formed sentences `a` and `b` over the same
atomic set, `a.tf ≥ b.tf` and `b.tf ≥ a.tf` hold together iff
`equivalent(a, b)` holds; the unrestricted claim is refuted by the
counterexample `a = P`, `b = P∧(Q∨¬Q)`. -/
theorem entail_antisym_same_atomics (a b : Sentence)
    (ha : wfS a) (hb : wfS b) (hab : atomicsOf a = atomicsOf b) :
    (geTF a b = some true ∧ geTF b a = some true) ↔
      equivalentS a b = some true := by
  -- evaluation is total on the shared canonical enumeration
  have hsa : ∀ v ∈ canonicalOf (atomicsOf a), (Symbol.eval v a.root).isSome := by
    intro v hv
    exact eval_isSome_on_row a v ha.1
      (fun c hc => by rw [keys_canonical _ v hv]; exact ha.2 c hc)
  have hsb : ∀ v ∈ canonicalOf (atomicsOf a), (Symbol.eval v b.root).isSome := by
    intro v hv
    exact eval_isSome_on_row b v hb.1
      (fun c hc => by rw [keys_canonical _ v hv, hab]; exact hb.2 c hc)
  have hga : ∀ v ∈ canonicalOf (atomicsOf a),
      Symbol.eval v a.root = some ((Symbol.eval v a.root).getD false) := by
    intro v hv
    obtain ⟨x, hx⟩ := Option.isSome_iff_exists.mp (hsa v hv)
    simp [hx]
  have hgb : ∀ v ∈ canonicalOf (atomicsOf b),
      Symbol.eval v b.root = some ((Symbol.eval v b.root).getD false) := by
    intro v hv
    rw [← hab] at hv
    obtain ⟨x, hx⟩ := Option.isSome_iff_exists.mp (hsb v hv)
    simp [hx]
  obtain ⟨Sa, hta⟩ : ∃ x, tfString a = some x := ⟨_, tfString_eq a _ hga⟩
  obtain ⟨Sb, htb⟩ : ∃ y, tfString b = some y := ⟨_, tfString_eq b _ hgb⟩
  have heqab := eqTF_some_iff a b Sa Sb hta htb
  have heqba := eqTF_some_iff b a Sb Sa htb hta
  have hdiff_ba : (atomicsOf b).filter (· ∉ atomicsOf a) = [] := by
    rw [← hab]
    refine List.filter_eq_nil_iff.mpr ?_
    intro x hx
    simp [hx]
  have hdiff_ab : (atomicsOf a).filter (· ∉ atomicsOf b) = [] := by
    rw [hab]
    refine List.filter_eq_nil_iff.mpr ?_
    intro x hx
    simp [hx]
  by_cases hE : Sa.filter (· ≠ ' ') = Sb.filter (· ≠ ' ')
  · -- equal table strings: everything is `some true`
    have h1 : eqTF a b = some true := by
      rw [heqab, hE]; simp
    have h2 : eqTF b a = some true := by
      rw [heqba, hE]; simp
    constructor
    · intro _
      show eqTF a b = some true
      exact h1
    · intro _
      refine ⟨?_, ?_⟩
      · rw [geTF_if a b true h1]; rfl
      · rw [geTF_if b a true h2]; rfl
  · -- unequal table strings: mutual entailment would force equality
    have hEb : Sb.filter (· ≠ ' ') ≠ Sa.filter (· ≠ ' ') := fun hc => hE hc.symm
    have h1 : eqTF a b = some false := by
      rw [heqab]
      congr 1
      exact beq_eq_false_iff_ne.mpr hE
    have h2 : eqTF b a = some false := by
      rw [heqba]
      congr 1
      exact beq_eq_false_iff_ne.mpr hEb
    constructor
    · rintro ⟨hge1, hge2⟩
      exfalso
      rw [geTF_if a b false h1] at hge1
      rw [geTF_if b a false h2] at hge2
      simp only [if_neg (by simp : ¬(false = true))] at hge1 hge2
      -- extract "all satisfying assignments of one satisfy the other"
      have hsubT : ∀ v ∈ truthTrue a, (Symbol.eval v b.root).isSome :=
        fun v hv => hsb v (List.mem_filter.mp hv).1
      have hsubTb : ∀ v ∈ truthTrue b, (Symbol.eval v a.root).isSome := by
        intro v hv
        have := (List.mem_filter.mp hv).1
        rw [show canonicalOf (atomicsOf b) = canonicalOf (atomicsOf a) by
          rw [hab]] at this
        exact hsa v this
      rw [gtTF_char a b h1 hdiff_ba hsubT] at hge1
      rw [gtTF_char b a h2 hdiff_ab hsubTb] at hge2
      have hall1 := List.all_eq_true.mp (Option.some.inj hge1)
      have hall2 := List.all_eq_true.mp (Option.some.inj hge2)
      -- pointwise equality of the two evaluations
      have hpoint : ∀ v ∈ canonicalOf (atomicsOf a),
          (Symbol.eval v a.root).getD false =
            (Symbol.eval v b.root).getD false := by
        intro v hv
        obtain ⟨xa, hxa⟩ := Option.isSome_iff_exists.mp (hsa v hv)
        obtain ⟨xb, hxb⟩ := Option.isSome_iff_exists.mp (hsb v hv)
        rw [hxa, hxb]
        cases xa with
        | true =>
          have hmem : v ∈ truthTrue a :=
            List.mem_filter.mpr ⟨hv, by simp [hxa]⟩
          have := hall1 v hmem
          rw [hxb] at this
          simp only [beq_iff_eq, Option.some.injEq] at this
          rw [this]
        | false =>
          cases xb with
          | false => rfl
          | true =>
            have hmem : v ∈ truthTrue b := by
              refine List.mem_filter.mpr ⟨?_, by simp [hxb]⟩
              rw [show canonicalOf (atomicsOf b) = canonicalOf (atomicsOf a) by
                rw [hab]]
              exact hv
            have := hall2 v hmem
            rw [hxa] at this
            simp at this
      obtain ⟨x, y, hx, hy, hxy⟩ := stripped_tfString_eq a b _ _ hga hgb hab hpoint
      rw [hta] at hx
      rw [htb] at hy
      rw [Option.some.inj hx, Option.some.inj hy] at hE
      exact hE hxy
    · intro hEq
      exfalso
      have : eqTF a b = some true := hEq
      rw [h1] at this
      exact Bool.noConfusion (Option.some.inj this)

/-- C5 amended witness: instantiated at the parsed sentences P∨Q and Q∨P
(same atomics), where both entailments and equivalence hold. -/
theorem entail_antisym_same_atomics_witness :
    (geTF ⟨.binary 'v' (.leaf 'P' ['P']) (.leaf 'Q' ['Q']) (cs "PvQ")⟩
        ⟨.binary 'v' (.leaf 'Q' ['Q']) (.leaf 'P' ['P']) (cs "QvP")⟩ = some true ∧
     geTF ⟨.binary 'v' (.leaf 'Q' ['Q']) (.leaf 'P' ['P']) (cs "QvP")⟩
        ⟨.binary 'v' (.leaf 'P' ['P']) (.leaf 'Q' ['Q']) (cs "PvQ")⟩ = some true) ↔
      equivalentS ⟨.binary 'v' (.leaf 'P' ['P']) (.leaf 'Q' ['Q']) (cs "PvQ")⟩
        ⟨.binary 'v' (.leaf 'Q' ['Q']) (.leaf 'P' ['P']) (cs "QvP")⟩ = some true :=
  entail_antisym_same_atomics _ _ (by decide) (by decide) (by decide)

/-! ### C8 — amended visibility theorem -/

theorem decDigitsGo_congr :
    ∀ f1 f2 n, n ≤ f1 → n ≤ f2 → decDigitsGo f1 n = decDigitsGo f2 n := by
  intro f1
  induction f1 with
  | zero =>
    intro f2 n h1 _
    have hn : n = 0 := by omega
    subst hn
    cases f2 with
    | zero => rfl
    | succ k => simp [decDigitsGo]
  | succ f ih =>
    intro f2 n h1 h2
    by_cases hn : n < 10
    · cases f2 with
      | zero =>
        have : n = 0 := by omega
        subst this
        simp [decDigitsGo]
      | succ k => simp [decDigitsGo, hn]
    · have h10 : 10 ≤ n := by omega
      cases f2 with
      | zero => omega
      | succ k =>
        simp only [decDigitsGo, if_neg hn]
        have hdiv : n / 10 < n := Nat.div_lt_self (by omega) (by omega)
        rw [ih k (n / 10) (by omega) (by omega)]

theorem decDigits_ge10 (x : Nat) (hx : 10 ≤ x) :
    decDigits x = decDigits (x / 10) ++ [x % 10] := by
  unfold decDigits
  cases x with
  | zero => omega
  | succ m =>
    have hdiv : (m + 1) / 10 < m + 1 := Nat.div_lt_self (by omega) (by omega)
    simp only [decDigitsGo, if_neg (by omega : ¬(m + 1 < 10))]
    rw [decDigitsGo_congr m ((m + 1) / 10) ((m + 1) / 10) (by omega) (by omega)]

theorem decDigits_div10 (x : Nat) (hx : 10 ≤ x) :
    decDigits (x / 10) = (decDigits x).dropLast := by
  rw [decDigits_ge10 x hx, List.dropLast_concat]

theorem prefix_of_prefix_dropLast {l m : List Nat}
    (h : l.isPrefixOf m.dropLast = true) : l.isPrefixOf m = true := by
  rw [List.isPrefixOf_iff_prefix] at h ⊢
  exact h.trans (List.dropLast_prefix m)

/-- The line code seen at (1-based) line `i`. -/
def accCode (p : Proof) (i : Nat) : Nat := p.accesses.getD (i - 1) 0

theorem accessAt_eq (p : Proof) (i : Nat) (h1 : 1 ≤ i)
    (h2 : i - 1 < p.accesses.length) :
    (if i = 0 then p.accesses.getLast? else p.accesses.get? (i - 1)) =
      some (accCode p i) := by
  rw [if_neg (by omega)]
  rw [List.get?_eq_getElem?, List.getElem?_eq_getElem h2]
  simp [accCode, List.getD_eq_getElem?_getD, List.getElem?_eq_getElem h2]

/-- The adjusted accessee used by `_can_access`. -/
def adjAccessee (p : Proof) (A : Nat) : Nat :=
  if A = p.len + 1 then A - 1 else A

theorem canAccess_char (p : Proof) (A B : Nat)
    (hlen : p.accesses.length = p.theorems.length)
    (hA1 : 1 ≤ A) (hA2 : A ≤ p.len + 1)
    (hB1 : 1 ≤ B) (hB2 : B ≤ p.len) :
    p.canAccess A B = some
      ((decDigits (accCode p B)).isPrefixOf
        (decDigits (accCode p (adjAccessee p A)))) := by
  have hlenpos : 1 ≤ p.len := le_trans hB1 hB2
  have hadj1 : 1 ≤ adjAccessee p A := by
    unfold adjAccessee
    split <;> omega
  have hadj2 : adjAccessee p A - 1 < p.accesses.length := by
    unfold adjAccessee Proof.len at *
    split <;> omega
  have hBlt : B - 1 < p.accesses.length := by
    unfold Proof.len at *
    omega
  unfold Proof.canAccess
  show (do
    let x ← (if adjAccessee p A = 0 then p.accesses.getLast?
             else p.accesses.get? (adjAccessee p A - 1))
    let y ← (if B = 0 then p.accesses.getLast? else p.accesses.get? (B - 1))
    pure ((decDigits y).isPrefixOf (decDigits x)) : Option Bool) = _
  rw [accessAt_eq p (adjAccessee p A) hadj1 hadj2]
  rw [accessAt_eq p B hB1 hBlt]
  rfl

theorem accessibleGo_char (p : Proof) (A : Nat)
    (hlen : p.accesses.length = p.theorems.length)
    (hA1 : 1 ≤ A) (hA2 : A ≤ p.len + 1) :
    ∀ idxs : List Nat, (∀ i ∈ idxs, 1 ≤ i ∧ i ≤ p.len) → idxs.Nodup →
      ∃ l, accessibleGo p A idxs = some l ∧
        ∀ B, ((∃ t, (t, B) ∈ l) ↔ (B ∈ idxs ∧
          (decDigits (accCode p B)).isPrefixOf
            (decDigits (accCode p (adjAccessee p A))) = true)) := by
  intro idxs
  induction idxs with
  | nil =>
    intro _ _
    exact ⟨[], rfl, by simp⟩
  | cons i rest ih =>
    intro hbound hnodup
    obtain ⟨hi1, hi2⟩ := hbound i (by simp)
    obtain ⟨l', hl', hiff⟩ := ih (fun j hj => hbound j (by simp [hj]))
      hnodup.of_cons
    have hcan := canAccess_char p A i hlen hA1 hA2 hi1 hi2
    have hinotrest : i ∉ rest := (List.nodup_cons.mp hnodup).1
    by_cases hvis : (decDigits (accCode p i)).isPrefixOf
        (decDigits (accCode p (adjAccessee p A))) = true
    · -- the line is visible: it is yielded
      have hget : ∃ t, p.get i = some t := by
        unfold Proof.get
        rw [if_neg (by omega)]
        have : i - 1 < p.theorems.length := by unfold Proof.len at hi2; omega
        exact ⟨_, List.get?_eq_get this⟩
      obtain ⟨t, ht⟩ := hget
      refine ⟨(t, i) :: l', ?_, ?_⟩
      · unfold accessibleGo
        rw [hcan]
        simp only [Option.some_bind, hvis, if_pos rfl, ht, hl']
        rfl
      · intro B
        constructor
        · rintro ⟨u, hu⟩
          rcases List.mem_cons.mp hu with heq | hmem
          · have hBi : B = i := congrArg Prod.snd heq
            subst hBi
            exact ⟨by simp, hvis⟩
          · obtain ⟨hBrest, hpre⟩ := (hiff B).mp ⟨u, hmem⟩
            exact ⟨by simp [hBrest], hpre⟩
        · rintro ⟨hBmem, hpre⟩
          rcases List.mem_cons.mp hBmem with rfl | hBrest
          · exact ⟨t, by simp⟩
          · obtain ⟨u, hu⟩ := (hiff B).mpr ⟨hBrest, hpre⟩
            exact ⟨u, by simp [hu]⟩
    · -- invisible: skipped
      refine ⟨l', ?_, ?_⟩
      · unfold accessibleGo
        rw [hcan]
        simp only [Option.some_bind, hvis]
        simpa using hl'
      · intro B
        constructor
        · intro hex
          obtain ⟨hBrest, hpre⟩ := (hiff B).mp hex
          exact ⟨by simp [hBrest], hpre⟩
        · rintro ⟨hBmem, hpre⟩
          rcases List.mem_cons.mp hBmem with rfl | hBrest
          · exact absurd hpre hvis
          · exact (hiff B).mpr ⟨hBrest, hpre⟩

theorem accessible_iff_prefix (p : Proof) (A B : Nat)
    (hlen : p.accesses.length = p.theorems.length)
    (hA1 : 1 ≤ A) (hA2 : A ≤ p.len + 1) :
    (p.accessibleList A).map (fun l => l.any (fun pr => pr.2 == B)) =
      some ((decide (1 ≤ B) && decide (B ≤ p.len)) &&
        (decDigits (accCode p B)).isPrefixOf
          (decDigits (accCode p (adjAccessee p A)))) := by
  obtain ⟨l, hl, hiff⟩ := accessibleGo_char p A hlen hA1 hA2
    (List.range' 1 p.len)
    (fun i hi => by
      rw [List.mem_range'_1] at hi
      omega)
    (List.nodup_range' 1 p.len 1 Nat.one_pos)
  unfold Proof.accessibleList
  rw [hl]
  simp only [Option.map_some']
  congr 1
  rw [Bool.eq_iff_iff]
  rw [List.any_eq_true]
  constructor
  · rintro ⟨pr, hpr, hB⟩
    have hsnd : pr.2 = B := by simpa using hB
    have hmem : (pr.1, B) ∈ l := by rw [← hsnd]; exact hpr
    obtain ⟨hBmem, hpre⟩ := (hiff B).mp ⟨pr.1, hmem⟩
    rw [List.mem_range'_1] at hBmem
    simp only [Bool.and_eq_true, decide_eq_true_eq]
    exact ⟨⟨by omega, by omega⟩, hpre⟩
  · intro hrhs
    simp only [Bool.and_eq_true, decide_eq_true_eq] at hrhs
    obtain ⟨⟨h1, h2⟩, hpre⟩ := hrhs
    obtain ⟨t, ht⟩ := (hiff B).mpr ⟨List.mem_range'_1.mpr ⟨h1, by omega⟩, hpre⟩
    exact ⟨(t, B), ht, by simp⟩

/-- Ledger extensions that open no new assumption box: each step appends a
line through `append_sentence` with no explicit access, either at the
current indentation (a same-level rule, yielding the current scope code) or
below it (a closing rule, dividing the code by ten).  The `10 ≤ access`
guard mirrors closing a box that was actually open (scope codes carry one
digit per open box). -/
inductive NonOpening : Proof → Proof → Prop where
  | refl (p : Proof) : NonOpening p p
  | same (p q r : Proof) (thm : Sentence) (rule : Rule)
      (hpq : NonOpening p q)
      (happ : q.appendSentence q.indent thm rule none = some r) :
      NonOpening p r
  | close (p q r : Proof) (ind : Int) (thm : Sentence) (rule : Rule)
      (hpq : NonOpening p q) (hind : ind < q.indent) (hacc : 10 ≤ q.access)
      (happ : q.appendSentence ind thm rule none = some r) :
      NonOpening p r

theorem appendSentence_same_access (q r : Proof) (thm : Sentence)
    (rule : Rule) (h : q.appendSentence q.indent thm rule none = some r) :
    r.accesses = q.accesses ++ [q.access] ∧ r.access = q.access := by
  unfold Proof.appendSentence Proof.newAccess at h
  simp only [Option.getD_none, if_pos rfl, ruleIsAssumeObj, Bool.false_or,
    gt_iff_lt, lt_irrefl, decide_False, Bool.false_eq_true, if_false,
    if_true] at h
  have hr : _ = r := Option.some.inj h
  subst hr
  refine ⟨rfl, ?_⟩
  show ((q.accesses ++ [q.access]).getLast?).getD 1 = q.access
  rw [List.getLast?_concat]
  rfl

theorem appendSentence_close_access (q r : Proof) (ind : Int)
    (thm : Sentence) (rule : Rule) (hind : ind < q.indent)
    (h : q.appendSentence ind thm rule none = some r) :
    r.accesses = q.accesses ++ [q.access / 10] ∧ r.access = q.access / 10 := by
  unfold Proof.appendSentence Proof.newAccess at h
  simp only [Option.getD_none] at h
  rw [if_pos trivial] at h
  rw [if_neg (show ¬((ruleIsAssumeObj rule || decide (ind > q.indent)) = true) by
    simp [ruleIsAssumeObj]
    omega)] at h
  rw [if_neg (show ¬(ind = q.indent) by omega)] at h
  have hr : _ = r := Option.some.inj h
  subst hr
  refine ⟨rfl, ?_⟩
  show ((q.accesses ++ [q.access / 10]).getLast?).getD 1 = q.access / 10
  rw [List.getLast?_concat]
  rfl

theorem nonOpening_invariant (p q : Proof) (hpq : NonOpening p q) (x : Nat)
    (hx : (decDigits x).isPrefixOf (decDigits p.access) = false) :
    (decDigits x).isPrefixOf (decDigits q.access) = false ∧
    (q.accesses.drop p.accesses.length).all
      (fun y => !((decDigits x).isPrefixOf (decDigits y))) = true ∧
    p.accesses.length ≤ q.accesses.length := by
  induction hpq with
  | refl => exact ⟨hx, by simp, le_refl _⟩
  | same q r thm rule hpq happ ih =>
    obtain ⟨hcur, hall, hle⟩ := ih
    obtain ⟨hacc, haccess⟩ := appendSentence_same_access q r thm rule happ
    refine ⟨by rw [haccess]; exact hcur, ?_, ?_⟩
    · rw [hacc, List.drop_append_of_le_length hle, List.all_append]
      simp [hall, hcur]
    · rw [hacc]
      simp only [List.length_append, List.length_cons, List.length_nil]
      omega
  | close q r ind thm rule hpq hind haccge happ ih =>
    obtain ⟨hcur, hall, hle⟩ := ih
    obtain ⟨hacc, haccess⟩ := appendSentence_close_access q r ind thm rule
      hind happ
    have hnew : (decDigits x).isPrefixOf (decDigits (q.access / 10)) = false := by
      by_contra hc
      rw [Bool.not_eq_false] at hc
      rw [decDigits_div10 q.access haccge] at hc
      exact absurd (prefix_of_prefix_dropLast hc) (by rw [hcur]; simp)
    refine ⟨by rw [haccess]; exact hnew, ?_, ?_⟩
    · rw [hacc, List.drop_append_of_le_length hle, List.all_append]
      simp [hall, hnew]
    · rw [hacc]
      simp only [List.length_append, List.length_cons, List.length_nil]
      omega

/-- C8 (amended).  Part 1, as claimed: line `B` is yielded by
`accessible(A)` iff the decimal digit string of `B`'s scope code is a
prefix of the digit string at the (adjusted) accessee.  Part 2, weakened:
a line whose code is not a prefix of the current one — e.g. a line inside a
box that has closed — stays invisible from the current point and from every
line appended afterwards, as long as no new assumption box is opened; with
new boxes the per-depth code counter can recreate a closed box's code
prefix and the line becomes visible again (see the counterexample). -/
theorem scope_visibility_amended :
    (∀ (p : Proof) (A B : Nat), p.accesses.length = p.theorems.length →
      1 ≤ A → A ≤ p.len + 1 →
      (p.accessibleList A).map (fun l => l.any (fun pr => pr.2 == B)) =
        some ((decide (1 ≤ B) && decide (B ≤ p.len)) &&
          (decDigits (accCode p B)).isPrefixOf
            (decDigits (accCode p (adjAccessee p A))))) ∧
    (∀ (p q : Proof) (x : Nat), NonOpening p q →
      (decDigits x).isPrefixOf (decDigits p.access) = false →
      (decDigits x).isPrefixOf (decDigits q.access) = false ∧
      (q.accesses.drop p.accesses.length).all
        (fun y => !((decDigits x).isPrefixOf (decDigits y))) = true) :=
  ⟨fun p A B hlen hA1 hA2 => accessible_iff_prefix p A B hlen hA1 hA2,
   fun p q x hpq hx =>
    ⟨(nonOpening_invariant p q hpq x hx).1, (nonOpening_invariant p q hpq x hx).2.1⟩⟩

/-- C8 amended witness: part 1 at the one-line ledger with premise P
(line 1 sees itself), and part 2 at the trivial extension with code 2,
which is not a prefix of code 1. -/
theorem scope_visibility_amended_witness :
    ((Proof.ofSentences [⟨.leaf 'P' ['P']⟩]).accessibleList 1).map
        (fun l => l.any (fun pr => pr.2 == 1)) = some true ∧
    (decDigits 2).isPrefixOf
        (decDigits (Proof.ofSentences [⟨.leaf 'P' ['P']⟩]).access) = false := by
  constructor
  · have h := scope_visibility_amended.1 (Proof.ofSentences [⟨.leaf 'P' ['P']⟩])
      1 1 rfl (by decide) (by decide)
    rw [h]
    rfl
  · exact (scope_visibility_amended.2 (Proof.ofSentences [⟨.leaf 'P' ['P']⟩])
      (Proof.ofSentences [⟨.leaf 'P' ['P']⟩]) 2
      (NonOpening.refl _) (by decide)).1

/-! Flat chains of same-depth connectives.  A *unit* operand is a nonempty
string whose depth-zero scan (the one `_enclosed` performs) records no
binary connective and whose parentheses balance back to depth zero, so a
chain `u₀ c u₁ c … c uₖ` of units exposes exactly the `k` separators as
the depth-zero connectives. -/
def unitScan : Int → List Char → Bool
  | _, [] => true
  | d, ch :: rest =>
    let d' := d + (if ch = '(' then 1 else 0) - (if ch = ')' then 1 else 0)
    (!(decide (d' = 0) && decide (ch ∈ BINARIES))) && unitScan d' rest

def finalDepth : Int → List Char → Int
  | d, [] => d
  | d, ch :: rest =>
    finalDepth (d + (if ch = '(' then 1 else 0) - (if ch = ')' then 1 else 0)) rest

def isUnit (u : List Char) : Bool :=
  !u.isEmpty && unitScan 0 u && (finalDepth 0 u == 0)

theorem binary_not_paren (c : Char) (hc : c ∈ BINARIES) : c ≠ '(' ∧ c ≠ ')' := by
  simp only [BINARIES, List.mem_cons, List.not_mem_nil, or_false] at hc
  rcases hc with rfl | rfl | rfl | rfl | rfl <;> exact ⟨by decide, by decide⟩

theorem connScanAux_unit (u : List Char) : ∀ (rest : List Char) (i last : Nat)
    (d : Int), unitScan d u = true →
    connScanAux (u ++ rest) i last d =
      connScanAux rest (i + u.length) last (finalDepth d u) := by
  induction u with
  | nil => intro rest i last d _; simp [finalDepth]
  | cons ch t ih =>
    intro rest i last d hu
    simp only [unitScan, Bool.and_eq_true, Bool.not_eq_true',
      Bool.and_eq_false_iff, decide_eq_false_iff_not] at hu
    obtain ⟨h1, h2⟩ := hu
    show (if _ ∧ i ≠ last ∧ ch ∈ BINARIES then _ else []) ++
        connScanAux (t ++ rest) (i + 1) last _ = _
    rw [if_neg (by
      rintro ⟨hd, _, hb⟩
      rcases h1 with h1 | h1
      · exact h1 hd
      · exact h1 hb)]
    rw [ih rest (i + 1) last _ h2]
    simp only [List.nil_append, finalDepth, List.length_cons]
    congr 1
    omega

theorem insertNat_sorted_cons (a : Nat) (l : List Nat)
    (h : ∀ b ∈ l.head?, a ≤ b) : insertNat a l = a :: l := by
  cases l with
  | nil => rfl
  | cons b t =>
    have hab : a ≤ b := h b rfl
    simp [insertNat, hab]

theorem sortNat_sorted : ∀ l : List Nat, List.Chain' (· ≤ ·) l →
    sortNat l = l := by
  intro l
  induction l with
  | nil => intro _; rfl
  | cons a l ih =>
    intro h
    rw [List.chain'_cons'] at h
    show insertNat a (sortNat l) = a :: l
    rw [ih h.2]
    exact insertNat_sorted_cons a l h.1

theorem sameScope_of_single (formula : List Char) (conn : List (Nat × Char))
    (i0 : Nat) (hhead : (sortNat (conn.map (·.1))).head? = some i0)
    (hlen : ¬ conn.length > 1) :
    sameScope formula conn = some (formula, i0) := by
  obtain ⟨tl, hs⟩ : ∃ tl, sortNat (conn.map (·.1)) = i0 :: tl := by
    cases hs : sortNat (conn.map (·.1)) with
    | nil => rw [hs] at hhead; exact absurd hhead (by simp)
    | cons a l =>
      rw [hs] at hhead
      obtain rfl : a = i0 := by simpa using hhead
      exact ⟨l, rfl⟩
  unfold sameScope
  rw [hs]
  show (if conn.length > 1 then
      (match (i0 :: tl).get? ((conn.length + 1) / 2 - 1) with
       | none => none
       | some arg1_pos =>
         match conn.lookup arg1_pos with
         | none => none
         | some c =>
           some ((if (conn.length + 1) / 2 > 1 then wrapP (formula.take arg1_pos)
                  else formula.take arg1_pos) ++
                 c :: wrapP (formula.drop (arg1_pos + 1)),
             (if (conn.length + 1) / 2 > 1 then wrapP (formula.take arg1_pos)
              else formula.take arg1_pos).length))
    else some (formula, i0)) = some (formula, i0)
  rw [if_neg hlen]

theorem sameScope_eval (formula : List Char) (conn : List (Nat × Char))
    (i0 arg1_pos : Nat) (c : Char)
    (hhead : (sortNat (conn.map (·.1))).head? = some i0)
    (hlen : conn.length > 1)
    (hget : (sortNat (conn.map (·.1))).get? ((conn.length + 1) / 2 - 1) =
      some arg1_pos)
    (hlook : conn.lookup arg1_pos = some c) :
    sameScope formula conn =
      some ((if (conn.length + 1) / 2 > 1 then wrapP (formula.take arg1_pos)
             else formula.take arg1_pos) ++
            c :: wrapP (formula.drop (arg1_pos + 1)),
        (if (conn.length + 1) / 2 > 1 then wrapP (formula.take arg1_pos)
         else formula.take arg1_pos).length) := by
  obtain ⟨tl, hs⟩ : ∃ tl, sortNat (conn.map (·.1)) = i0 :: tl := by
    cases hs : sortNat (conn.map (·.1)) with
    | nil => rw [hs] at hhead; exact absurd hhead (by simp)
    | cons a l =>
      rw [hs] at hhead
      obtain rfl : a = i0 := by simpa using hhead
      exact ⟨l, rfl⟩
  rw [hs] at hget
  unfold sameScope
  rw [hs]
  show (if conn.length > 1 then
      (match (i0 :: tl).get? ((conn.length + 1) / 2 - 1) with
       | none => none
       | some arg1_pos =>
         match conn.lookup arg1_pos with
         | none => none
         | some c =>
           some ((if (conn.length + 1) / 2 > 1 then wrapP (formula.take arg1_pos)
                  else formula.take arg1_pos) ++
                 c :: wrapP (formula.drop (arg1_pos + 1)),
             (if (conn.length + 1) / 2 > 1 then wrapP (formula.take arg1_pos)
              else formula.take arg1_pos).length))
    else some (formula, i0)) = _
  rw [if_pos hlen, hget]
  show (match conn.lookup arg1_pos with
        | none => none
        | some c =>
          some ((if (conn.length + 1) / 2 > 1 then wrapP (formula.take arg1_pos)
                 else formula.take arg1_pos) ++
                c :: wrapP (formula.drop (arg1_pos + 1)),
            (if (conn.length + 1) / 2 > 1 then wrapP (formula.take arg1_pos)
             else formula.take arg1_pos).length)) = _
  rw [hlook]

/-- A flat chain of same-depth binary connectives: a head operand followed
by (connective, operand) pairs — the connectives may differ, e.g.
`PvQ&R` is `chainJoin "P" [('v', "Q"), ('&', "R")]`. -/
def chainJoin : List Char → List (Char × List Char) → List Char
  | u, [] => u
  | u, (c, v) :: t => u ++ c :: chainJoin v t

/-- Index and character of each separator of the chain, starting at
offset `i`. -/
def sepPosChain : Nat → List Char → List (Char × List Char) → List (Nat × Char)
  | _, _, [] => []
  | i, u, (c, v) :: t => (i + u.length, c) :: sepPosChain (i + u.length + 1) v t

theorem chainJoin_length_ge (u : List Char) (t : List (Char × List Char)) :
    u.length ≤ (chainJoin u t).length := by
  cases t with
  | nil => simp [chainJoin]
  | cons p t =>
    obtain ⟨c, v⟩ := p
    simp only [chainJoin, List.length_append, List.length_cons]
    omega

theorem sepPosChain_lt : ∀ (rest : List (Char × List Char)) (u : List Char)
    (i : Nat), (∀ p ∈ rest, p.2 ≠ []) →
    ∀ q ∈ sepPosChain i u rest, q.1 + 1 < i + (chainJoin u rest).length := by
  intro rest
  induction rest with
  | nil => intro u i _ q hq; simp [sepPosChain] at hq
  | cons p t ih =>
    obtain ⟨c, v⟩ := p
    intro u i hne q hq
    simp only [sepPosChain, List.mem_cons] at hq
    have hv : v ≠ [] := hne (c, v) (by simp)
    have hvlen : 1 ≤ v.length := List.length_pos.mpr hv
    have hchain := chainJoin_length_ge v t
    rcases hq with rfl | hq
    · show i + u.length + 1 < i + (chainJoin u ((c, v) :: t)).length
      simp only [chainJoin, List.length_append, List.length_cons]
      omega
    · have := ih v (i + u.length + 1) (fun p hp => hne p (by simp [hp])) q hq
      simp only [chainJoin, List.length_append, List.length_cons] at this ⊢
      omega

theorem sepPosChain_ge : ∀ (rest : List (Char × List Char)) (u : List Char)
    (i : Nat), ∀ q ∈ sepPosChain i u rest, i ≤ q.1 := by
  intro rest
  induction rest with
  | nil => intro u i q hq; simp [sepPosChain] at hq
  | cons p t ih =>
    obtain ⟨c, v⟩ := p
    intro u i q hq
    simp only [sepPosChain, List.mem_cons] at hq
    rcases hq with rfl | hq
    · show i ≤ i + u.length
      omega
    · have := ih v (i + u.length + 1) q hq
      omega

theorem sepPosChain_pairwise : ∀ (rest : List (Char × List Char))
    (u : List Char) (i : Nat),
    List.Pairwise (· < ·) ((sepPosChain i u rest).map (·.1)) := by
  intro rest
  induction rest with
  | nil => intro u i; simp [sepPosChain]
  | cons p t ih =>
    obtain ⟨c, v⟩ := p
    intro u i
    simp only [sepPosChain, List.map_cons]
    refine List.Pairwise.cons ?_ (ih v (i + u.length + 1))
    intro b hb
    obtain ⟨q, hq, rfl⟩ := List.mem_map.mp hb
    have := sepPosChain_ge t v (i + u.length + 1) q hq
    show i + u.length < q.1
    omega

theorem sepPosChain_length : ∀ (rest : List (Char × List Char))
    (u : List Char) (i : Nat),
    (sepPosChain i u rest).length = rest.length := by
  intro rest
  induction rest with
  | nil => intro u i; simp [sepPosChain]
  | cons p t ih =>
    obtain ⟨c, v⟩ := p
    intro u i
    simp only [sepPosChain, List.length_cons, ih v (i + u.length + 1)]

theorem connScanAux_chainJoin : ∀ (rest : List (Char × List Char))
    (u : List Char) (i last : Nat),
    (unitScan 0 u = true ∧ finalDepth 0 u = 0) →
    (∀ p ∈ rest, p.1 ∈ BINARIES ∧ unitScan 0 p.2 = true ∧
      finalDepth 0 p.2 = 0) →
    (∀ q ∈ sepPosChain i u rest, q.1 ≠ last) →
    connScanAux (chainJoin u rest) i last 0 = sepPosChain i u rest := by
  intro rest
  induction rest with
  | nil =>
    intro u i last hu _ _
    have h2 := connScanAux_unit u [] i last 0 hu.1
    simp only [List.append_nil] at h2
    show connScanAux u i last 0 = []
    rw [h2, hu.2]
    rfl
  | cons p t ih =>
    obtain ⟨c, v⟩ := p
    intro u i last hu hrest hlast
    show connScanAux (u ++ c :: chainJoin v t) i last 0 = _
    rw [connScanAux_unit u (c :: chainJoin v t) i last 0 hu.1, hu.2]
    obtain ⟨hcB, hv1, hv2⟩ := hrest (c, v) (by simp)
    obtain ⟨hp1, hp2⟩ := binary_not_paren c hcB
    show (if (0 : Int) + _ - _ = 0 ∧ i + u.length ≠ last ∧ c ∈ BINARIES
        then _ else []) ++
      connScanAux (chainJoin v t) (i + u.length + 1) last _ = _
    rw [if_pos ⟨by simp [hp1, hp2], hlast (i + u.length, c) (by
      show _ ∈ (i + u.length, c) :: _
      simp), hcB⟩]
    have hd : ((0 : Int) + (if c = '(' then 1 else 0) -
        (if c = ')' then 1 else 0)) = 0 := by simp [hp1, hp2]
    rw [hd]
    rw [ih v (i + u.length + 1) last ⟨hv1, hv2⟩
      (fun p hp => hrest p (by simp [hp]))
      (fun q hq => hlast q (by
        show _ ∈ (i + u.length, c) :: _
        simp [hq]))]
    rfl

theorem sepPosChain_get : ∀ (n : Nat) (rest : List (Char × List Char))
    (u : List Char) (i : Nat) (c : Char) (v : List Char)
    (rtail : List (Char × List Char)),
    rest.drop n = (c, v) :: rtail →
    (sepPosChain i u rest).get? n =
      some (i + (chainJoin u (rest.take n)).length, c) := by
  intro n
  induction n with
  | zero =>
    intro rest u i c v rtail hdrop
    rw [List.drop_zero] at hdrop
    subst hdrop
    show some (i + u.length, c) = _
    rfl
  | succ n ih =>
    intro rest u i c v rtail hdrop
    cases rest with
    | nil => simp at hdrop
    | cons p t =>
      obtain ⟨c1, v1⟩ := p
      have hdt : t.drop n = (c, v) :: rtail := hdrop
      show (sepPosChain (i + u.length + 1) v1 t).get? n = _
      rw [ih t v1 (i + u.length + 1) c v rtail hdt]
      have harith : i + u.length + 1 + (chainJoin v1 (t.take n)).length =
          i + (chainJoin u (((c1, v1) :: t).take (n + 1))).length := by
        show _ = i + (u ++ c1 :: chainJoin v1 (t.take n)).length
        simp only [List.length_append, List.length_cons]
        omega
      rw [harith]

theorem chainJoin_split : ∀ (n : Nat) (rest : List (Char × List Char))
    (u : List Char) (c : Char) (v : List Char)
    (rtail : List (Char × List Char)),
    rest.drop n = (c, v) :: rtail →
    chainJoin u rest = chainJoin u (rest.take n) ++ c :: chainJoin v rtail := by
  intro n
  induction n with
  | zero =>
    intro rest u c v rtail hdrop
    rw [List.drop_zero] at hdrop
    subst hdrop
    rfl
  | succ n ih =>
    intro rest u c v rtail hdrop
    cases rest with
    | nil => simp at hdrop
    | cons p t =>
      obtain ⟨c1, v1⟩ := p
      have hdt : t.drop n = (c, v) :: rtail := hdrop
      show u ++ c1 :: chainJoin v1 t = _
      rw [ih t v1 c v rtail hdt]
      show _ = (u ++ c1 :: chainJoin v1 (t.take n)) ++ c :: chainJoin v rtail
      simp

theorem lookup_pairwise_get : ∀ (l : List (Nat × Char)) (n x : Nat) (c : Char),
    List.Pairwise (· < ·) (l.map (·.1)) → l.get? n = some (x, c) →
    l.lookup x = some c := by
  intro l
  induction l with
  | nil => intro n x c _ h; simp at h
  | cons p t ih =>
    obtain ⟨y, d⟩ := p
    intro n x c hp hget
    cases n with
    | zero =>
      have hyd : (y, d) = (x, c) := by simpa using hget
      have h1 : y = x := congrArg Prod.fst hyd
      have h2 : d = c := congrArg Prod.snd hyd
      subst h1
      subst h2
      simp [List.lookup]
    | succ n =>
      have hget2 : t.get? n = some (x, c) := hget
      simp only [List.map_cons, List.pairwise_cons] at hp
      have hyx : y < x := by
        have hmem : (x, c) ∈ t := List.get?_mem hget2
        exact hp.1 x (List.mem_map.mpr ⟨(x, c), hmem, rfl⟩)
      have hne : x ≠ y := by omega
      show List.lookup x ((y, d) :: t) = some c
      simp only [List.lookup, beq_eq_false_iff_ne.mpr hne]
      exact ih n x c hp.2 hget2

theorem sameScope_chain (u0 : List Char) (rest : List (Char × List Char))
    (c : Char) (v : List Char) (rtail : List (Char × List Char))
    (hu0 : isUnit u0 = true)
    (hrest : ∀ p ∈ rest, p.1 ∈ BINARIES ∧ isUnit p.2 = true)
    (hk : 1 ≤ rest.length)
    (hdrop : rest.drop ((rest.length + 1) / 2 - 1) = (c, v) :: rtail) :
    (rest.length + 1) / 2 ≤ (rest.length + 1) - (rest.length + 1) / 2 ∧
    sameScope (chainJoin u0 rest) (connScan (chainJoin u0 rest) 0) =
      some ((if 1 < (rest.length + 1) / 2
              then wrapP (chainJoin u0 (rest.take ((rest.length + 1) / 2 - 1)))
              else chainJoin u0 (rest.take ((rest.length + 1) / 2 - 1))) ++
            c :: (if 1 < rest.length
              then wrapP (chainJoin v rtail)
              else chainJoin v rtail),
        (if 1 < (rest.length + 1) / 2
          then wrapP (chainJoin u0 (rest.take ((rest.length + 1) / 2 - 1)))
          else chainJoin u0 (rest.take ((rest.length + 1) / 2 - 1))).length) := by
  have hsplitU : ∀ w : List Char, isUnit w = true →
      w ≠ [] ∧ unitScan 0 w = true ∧ finalDepth 0 w = 0 := by
    intro w h
    simp only [isUnit, Bool.and_eq_true, Bool.not_eq_true', beq_iff_eq] at h
    refine ⟨?_, h.1.2, h.2⟩
    intro hnil
    rw [hnil] at h
    simp at h
  have hu0' := hsplitU u0 hu0
  have hops' : ∀ p ∈ rest, p.1 ∈ BINARIES ∧ unitScan 0 p.2 = true ∧
      finalDepth 0 p.2 = 0 := fun p hp =>
    ⟨(hrest p hp).1, (hsplitU p.2 (hrest p hp).2).2.1,
      (hsplitU p.2 (hrest p hp).2).2.2⟩
  refine ⟨by omega, ?_⟩
  have hlast : ∀ q ∈ sepPosChain 0 u0 rest,
      q.1 ≠ (chainJoin u0 rest).length - 1 := by
    intro q hq
    have h1 := sepPosChain_lt rest u0 0
      (fun p hp => (hsplitU p.2 (hrest p hp).2).1) q hq
    omega
  have hscan : connScan (chainJoin u0 rest) 0 = sepPosChain 0 u0 rest := by
    show connScanAux ((chainJoin u0 rest).drop 0) 0
        ((chainJoin u0 rest).length - 1) 0 = _
    rw [List.drop_zero]
    exact connScanAux_chainJoin rest u0 0 _ ⟨hu0'.2.1, hu0'.2.2⟩ hops' hlast
  rw [hscan]
  have hpair := sepPosChain_pairwise rest u0 0
  have hsort' : sortNat ((sepPosChain 0 u0 rest).map (·.1)) =
      (sepPosChain 0 u0 rest).map (·.1) :=
    sortNat_sorted _ (List.Chain'.imp (fun a b h => le_of_lt h) hpair.chain')
  have hconnlen := sepPosChain_length rest u0 0
  have hget := sepPosChain_get ((rest.length + 1) / 2 - 1) rest u0 0 c v rtail
    hdrop
  rw [zero_add] at hget
  have hgetidx : ((sepPosChain 0 u0 rest).map (·.1)).get?
      (((sepPosChain 0 u0 rest).length + 1) / 2 - 1) =
      some (chainJoin u0 (rest.take ((rest.length + 1) / 2 - 1))).length := by
    rw [hconnlen, List.get?_map, hget]
    rfl
  have hlook : (sepPosChain 0 u0 rest).lookup
      (chainJoin u0 (rest.take ((rest.length + 1) / 2 - 1))).length = some c :=
    lookup_pairwise_get _ _ _ _ hpair hget
  have hsplit := chainJoin_split ((rest.length + 1) / 2 - 1) rest u0 c v rtail
    hdrop
  have htake : (chainJoin u0 rest).take
      (chainJoin u0 (rest.take ((rest.length + 1) / 2 - 1))).length =
      chainJoin u0 (rest.take ((rest.length + 1) / 2 - 1)) := by
    rw [hsplit]
    exact List.take_left _ _
  have hdrop2 : (chainJoin u0 rest).drop
      ((chainJoin u0 (rest.take ((rest.length + 1) / 2 - 1))).length + 1) =
      chainJoin v rtail := by
    rw [hsplit]
    rw [show chainJoin u0 (rest.take ((rest.length + 1) / 2 - 1)) ++
        c :: chainJoin v rtail =
      (chainJoin u0 (rest.take ((rest.length + 1) / 2 - 1)) ++ [c]) ++
        chainJoin v rtail by simp]
    rw [show (chainJoin u0 (rest.take ((rest.length + 1) / 2 - 1))).length + 1 =
      (chainJoin u0 (rest.take ((rest.length + 1) / 2 - 1)) ++ [c]).length
      by simp]
    exact List.drop_left _ _
  obtain ⟨a, l0, hS⟩ : ∃ a l0, (sepPosChain 0 u0 rest).map (·.1) = a :: l0 := by
    cases hS0 : (sepPosChain 0 u0 rest).map (·.1) with
    | nil =>
      have hlen2 := congrArg List.length hS0
      rw [List.length_map, hconnlen] at hlen2
      simp only [List.length_nil] at hlen2
      omega
    | cons a l0 => exact ⟨a, l0, rfl⟩
  by_cases hgt : 1 < rest.length
  · rw [sameScope_eval (chainJoin u0 rest) (sepPosChain 0 u0 rest) a
      (chainJoin u0 (rest.take ((rest.length + 1) / 2 - 1))).length c
      (by rw [hsort', hS]; rfl)
      (by rw [hconnlen]; omega)
      (by rw [hsort']; exact hgetidx)
      hlook]
    rw [hconnlen]
    rw [htake, hdrop2]
    rw [if_pos hgt]
  · have h1 : rest.length = 1 := by omega
    have hhead : ((sepPosChain 0 u0 rest).map (·.1)).head? = some a := by
      rw [hS]; rfl
    have ha : a =
        (chainJoin u0 (rest.take ((rest.length + 1) / 2 - 1))).length := by
      have hidx : (rest.length + 1) / 2 - 1 = 0 := by omega
      rw [hidx]
      have hx := hgetidx
      rw [hconnlen, h1, hS] at hx
      simpa using hx
    rw [sameScope_of_single (chainJoin u0 rest) (sepPosChain 0 u0 rest) a
      (by rw [hsort']; exact hhead)
      (by rw [hconnlen]; omega)]
    rw [if_neg (by omega), if_neg (by omega)]
    rw [hsplit, ha]

/-- C2: on a flat chain of `k` same-depth binary connectives — possibly
distinct ones — joining `k+1` unit operands, `_same_scope` (fed the
depth-zero connectives `_enclosed` collects) takes the first `⌊(k+1)/2⌋`
operands as the left group, the remainder — never smaller — as the right
group, and makes the connective immediately after the left group the main
connective (each multi-operand group is re-wrapped in parentheses); in
particular `PvQvR` parses as `P∨(Q∨R)` and `PvQvRvS` parses as
`(P∨Q)∨(R∨S)`, and likewise on mixed chains `PvQ&R` as `P∨(Q∧R)` and
`PvQ&RvS` as `(P∨Q)∧(R∨S)`. -/
theorem balanced_grouping :
    (∀ (u0 : List Char) (rest : List (Char × List Char)) (c : Char)
      (v : List Char) (rtail : List (Char × List Char)),
      isUnit u0 = true →
      (∀ p ∈ rest, p.1 ∈ BINARIES ∧ isUnit p.2 = true) →
      1 ≤ rest.length →
      rest.drop ((rest.length + 1) / 2 - 1) = (c, v) :: rtail →
      (rest.length + 1) / 2 ≤ (rest.length + 1) - (rest.length + 1) / 2 ∧
      sameScope (chainJoin u0 rest) (connScan (chainJoin u0 rest) 0) =
        some ((if 1 < (rest.length + 1) / 2
                then wrapP (chainJoin u0
                  (rest.take ((rest.length + 1) / 2 - 1)))
                else chainJoin u0 (rest.take ((rest.length + 1) / 2 - 1))) ++
              c :: (if 1 < rest.length
                then wrapP (chainJoin v rtail)
                else chainJoin v rtail),
          (if 1 < (rest.length + 1) / 2
            then wrapP (chainJoin u0 (rest.take ((rest.length + 1) / 2 - 1)))
            else chainJoin u0
              (rest.take ((rest.length + 1) / 2 - 1))).length)) ∧
    parseChars (cs "PvQvR") = some (.binary 'v' (.leaf 'P' ['P'])
      (.binary 'v' (.leaf 'Q' ['Q']) (.leaf 'R' ['R']) (cs "QvR"))
      (cs "PvQvR")) ∧
    parseChars (cs "PvQvRvS") = some (.binary 'v'
      (.binary 'v' (.leaf 'P' ['P']) (.leaf 'Q' ['Q']) (cs "PvQ"))
      (.binary 'v' (.leaf 'R' ['R']) (.leaf 'S' ['S']) (cs "RvS"))
      (cs "(PvQ)vRvS")) ∧
    parseChars (cs "PvQ&R") = some (.binary 'v' (.leaf 'P' ['P'])
      (.binary '&' (.leaf 'Q' ['Q']) (.leaf 'R' ['R']) (cs "Q&R"))
      (cs "Pv(Q&R)")) ∧
    parseChars (cs "PvQ&RvS") = some (.binary '&'
      (.binary 'v' (.leaf 'P' ['P']) (.leaf 'Q' ['Q']) (cs "PvQ"))
      (.binary 'v' (.leaf 'R' ['R']) (.leaf 'S' ['S']) (cs "RvS"))
      (cs "(PvQ)&(RvS)")) :=
  ⟨fun u0 rest c v rtail h1 h2 h3 h4 =>
    sameScope_chain u0 rest c v rtail h1 h2 h3 h4, rfl, rfl, rfl, rfl⟩

/-- C2 witness: the mixed three-operand chain `PvQ&R` splits one operand
left, two right, main connective `v` at index 1. -/
theorem balanced_grouping_witness :
    (1 : Nat) ≤ 2 ∧
    sameScope (chainJoin (cs "P") [('v', cs "Q"), ('&', cs "R")])
        (connScan (chainJoin (cs "P") [('v', cs "Q"), ('&', cs "R")]) 0) =
      some (cs "Pv(Q&R)", 1) := by
  have h := balanced_grouping.1 (cs "P") [('v', cs "Q"), ('&', cs "R")]
    'v' (cs "Q") [('&', cs "R")] (by decide) (by decide) (by decide) rfl
  exact ⟨h.1, h.2⟩

end FitchProp
